import Mathlib

/-!
Verification of the QHFC generational model from EALib
(`qhfc.h`: `ealib::generational_models::qhfc`) and of the
deterministic-crowding tournament (`crowding.h`:
`ea::generational_models::deterministic_crowding`).

Individuals are abstract (`α`); fitness values (C++ `double`) are
modelled as `ℚ`.  The shared random generator is modelled as an explicit
stream of natural-number draws, and the external source of freshly
generated individuals as a stream of individuals; both are threaded
through every operation in the same call order as the C++ code.
-/

namespace EalibQhfc

/-- One subpopulation of the metapopulation: its QHFC admission level
(`QHFC_ADMISSION_LEVEL` meta-data) and its population. -/
structure Tier (α : Type) where
  adm : ℚ
  pop : List α
  deriving Repr, DecidableEq

/-- Default tier used with `List.getD` (the C++ code never reads
out-of-range indices on the paths we model). -/
def dummyTier {α : Type} : Tier α := ⟨0, []⟩

/-- External world: the shared random-number stream (`ea.rng()`) with its
position, and the stream of freshly generated individuals used by the
configuration fill policy, with its position. -/
structure Ext (α : Type) where
  rand : ℕ → ℕ
  rpos : ℕ
  fresh : ℕ → α
  fpos : ℕ

/-- Draw one random natural from the shared generator. -/
def Ext.next {α : Type} (e : Ext α) : ℕ × Ext α :=
  (e.rand e.rpos, { e with rpos := e.rpos + 1 })

/-- Generate one fresh individual from the external fill policy. -/
def Ext.gen {α : Type} (e : Ext α) : α × Ext α :=
  (e.fresh e.fpos, { e with fpos := e.fpos + 1 })

/-- Generate `n` fresh individuals in order. -/
def genFresh {α : Type} : ℕ → Ext α → List α × Ext α
  | 0, e => ([], e)
  | n + 1, e =>
    let p := e.gen
    let q := genFresh n p.2
    (p.1 :: q.1, q.2)

/-- QHFC configuration meta-data (all stored as `double` in the C++
code except `POPULATION_SIZE`). -/
structure Config where
  ps : ℕ        -- POPULATION_SIZE
  den : ℚ       -- QHFC_DETECT_EXPORT_NUM
  catchup : ℚ   -- QHFC_CATCHUP_GEN
  pct : ℚ       -- QHFC_PERCENT_REFILL
  btf : ℚ       -- QHFC_BREED_TOP_FREQ
  npg : ℚ       -- QHFC_NO_PROGRESS_GEN

/-- External evolutionary operators consumed by QHFC and by
deterministic crowding: fitness, similarity measure, recombination
(producing exactly two offspring), mutation, and the tier's own internal
update pipeline (`subpopulation.update()`), which may consume
randomness. -/
structure Ops (α : Type) where
  fit : α → ℚ
  sim : α → α → ℚ
  recombine : α → α → α × α
  mutate : α → α
  tierUpdate : List α → Ext α → List α × Ext α

/-- Modelled from the spec: `algorithm::random_split` (not among the
sources) removes `n` individuals chosen uniformly at random without
replacement from `pop`, returning the removed individuals and the
remainder; each removal consumes one draw from the shared generator. -/
def random_split {α : Type} : List α → ℕ → Ext α → List α × List α × Ext α
  | pop, 0, e => ([], pop, e)
  | pop, n + 1, e =>
    let d := e.next
    match pop.get? (d.1 % pop.length) with
    | none => ([], pop, d.2)
    | some a =>
      let r := random_split (pop.eraseIdx (d.1 % pop.length)) n d.2
      (a :: r.1, r.2.1, r.2.2)

/-- Modelled from the spec: the configuration fill policy
(`configuration().fill_population`, not among the sources) backfills the
vacated slots of a tier with freshly generated individuals up to
`POPULATION_SIZE`. -/
def fill_population {α : Type} (ps : ℕ) (pop : List α) (e : Ext α) :
    List α × Ext α :=
  let g := genFresh (ps - pop.length) e
  (pop ++ g.1, g.2)

/-- Modelled from the spec: `selection::elitism` (not among the sources)
selects the `m` best individuals of `pop` by fitness. -/
def elitism {α : Type} (fit : α → ℚ) (m : ℕ) (pop : List α) : List α :=
  (pop.insertionSort (fun a b => fit b ≤ fit a)).take m

/-- Modelled from the spec: `std::random_shuffle` permutes a population
uniformly at random (realised by drawing all elements without
replacement). -/
def shuffle {α : Type} (pop : List α) (e : Ext α) : List α × Ext α :=
  let r := random_split pop pop.length e
  (r.1, r.2.2)

/-- Maximum of a list of rationals (the `boost::accumulators` `max` tag;
`0` for the empty list, which the C++ code never queries). -/
def listMax : List ℚ → ℚ
  | [] => 0
  | [x] => x
  | x :: y :: r => max x (listMax (y :: r))

/-- Mean of a list of rationals (the `boost::accumulators` `mean` tag). -/
def listMean (l : List ℚ) : ℚ := l.sum / l.length

/-- The redistribution loop of `qhfc::adjust_admission_levels`
(`for(std::size_t i=1; i<ea.size(); ++i)`): starting at index `i`, each
tier of index `≥ 1` gets admission level `fmin + i*(fmax-fmin)/K`. -/
def admMap {α : Type} (fmin fmax K : ℚ) : ℕ → List (Tier α) → List (Tier α)
  | _, [] => []
  | i, t :: rest =>
    (if 1 ≤ i then { t with adm := fmin + (i : ℚ) * (fmax - fmin) / K } else t) ::
      admMap fmin fmax K (i + 1) rest

/-- The rebalancing condition of `qhfc::adjust_admission_levels`: the
mean fitness of the top tier (`ea.rbegin()`) exceeds
`2*admission(top) - admission(second_from_top)`. -/
def adjust_trigger {α : Type} (fit : α → ℚ) (tiers : List (Tier α)) : Bool :=
  decide (listMean (((tiers.getD (tiers.length - 1) dummyTier).pop).map fit) >
    2 * (tiers.getD (tiers.length - 1) dummyTier).adm -
      (tiers.getD (tiers.length - 2) dummyTier).adm)

/-- `qhfc::adjust_admission_levels`: if the mean fitness of the top tier
exceeds `2*admission(top) - admission(second_from_top)`, set the
admission level of every tier of rank `1 ≤ i < K` to
`admission(0) + i*(max_top - admission(0))/K`.  Tiers are listed bottom
(rank 0) first, top (rank K-1) last, as in `ea[i]`. -/
def adjust_admission_levels {α : Type} (fit : α → ℚ) (tiers : List (Tier α)) :
    List (Tier α) :=
  if adjust_trigger fit tiers then
    admMap (tiers.getD 0 dummyTier).adm
      (listMax (((tiers.getD (tiers.length - 1) dummyTier).pop).map fit))
      (tiers.length : ℚ) 0 tiers
  else tiers

/-- `qhfc::import_from_below` on the segment of tiers from `f` (head)
down to the bottom tier (last): remove `n` random individuals from `f`
and return them; if `f` is the bottom tier, backfill it with the fill
policy, otherwise recursively import `n` individuals from the tier
below and append them to `f`. -/
def import_from_below {α : Type} (ps n : ℕ) :
    List (Tier α) → Ext α → List α × List (Tier α) × Ext α
  | [], e => ([], [], e)
  | [t], e =>
    let r := random_split t.pop n e
    let g := fill_population ps r.2.1 r.2.2
    (r.1, [{ t with pop := g.1 }], g.2)
  | t :: t2 :: rest, e =>
    let r := random_split t.pop n e
    let b := import_from_below ps n (t2 :: rest) r.2.2
    (r.1, { t with pop := r.2.1 ++ b.1 } :: b.2.1, b.2.2)

/-- One pair of the `deterministic_crowding` loop body: recombine the two
parents, mutate both offspring, pair each offspring with a parent (the
`std::swap` on the similarity comparison), and let the parent survive
exactly when its fitness is strictly greater than its paired
offspring's. -/
def dc_pair {α : Type} (ops : Ops α) (p0 p1 : α) : α × α :=
  let o := ops.recombine p0 p1
  let m0 := ops.mutate o.1
  let m1 := ops.mutate o.2
  let c := if ops.sim p0 m0 < ops.sim p0 m1 then (m1, m0) else (m0, m1)
  ((if ops.fit p0 > ops.fit c.1 then p0 else c.1),
   (if ops.fit p1 > ops.fit c.2 then p1 else c.2))

/-- The pairing loop of `deterministic_crowding::operator()` (the
behaviour on an odd-length remainder is undefined in the source, which
increments the iterator twice without checking). -/
def dc_pairs {α : Type} (ops : Ops α) : List α → List α
  | p0 :: p1 :: rest =>
    let s := dc_pair ops p0 p1
    s.1 :: s.2 :: dc_pairs ops rest
  | _ => []

/-- `deterministic_crowding::operator()`: shuffle the population into
random pairs, then run one crowding tournament per pair. -/
def deterministic_crowding {α : Type} (ops : Ops α) (pop : List α) (e : Ext α) :
    List α × Ext α :=
  let s := shuffle pop e
  (dc_pairs ops s.1, s.2)

/-- The offspring-to-parent pairing of `deterministic_crowding`: the two
mutated offspring of the pair, ordered so that the first component is
the offspring the loop matches with `parents[0]` and the second the one
matched with `parents[1]` (after the `std::swap` on the similarity
comparison). -/
def paired_offspring {α : Type} (ops : Ops α) (p0 p1 : α) : α × α :=
  let o := ops.recombine p0 p1
  let m0 := ops.mutate o.1
  let m1 := ops.mutate o.2
  if ops.sim p0 m0 < ops.sim p0 m1 then (m1, m0) else (m0, m1)

/-- State threaded through the potency-testing loop of
`qhfc::potency_testing`: the population of the tier `f` under test, the
tiers strictly below `f` (highest first, bottom last), the accumulated
exports, and the external world. -/
structure PTState (α : Type) where
  fpop : List α
  below : List (Tier α)
  exports : List α
  e : Ext α

/-- Survivor routing inside `qhfc::potency_testing`: a tournament
survivor whose fitness strictly exceeds the admission level of the tier
above, while fewer than `QHFC_DETECT_EXPORT_NUM` individuals have been
exported, joins the exports and triggers a one-individual cascade import
from the tier below `f`; any other survivor is returned to `f`. -/
def route_one {α : Type} (ops : Ops α) (cfg : Config) (admT : ℚ) (j : α)
    (st : PTState α) : PTState α :=
  if ops.fit j > admT ∧ (st.exports.length : ℚ) < cfg.den then
    let r := import_from_below cfg.ps 1 st.below st.e
    { fpop := st.fpop ++ r.1, below := r.2.1,
      exports := st.exports ++ [j], e := r.2.2 }
  else
    { st with fpop := st.fpop ++ [j] }

/-- Route every survivor of one crowding tournament in order. -/
def route_all {α : Type} (ops : Ops α) (cfg : Config) (admT : ℚ) :
    List α → PTState α → PTState α
  | [], st => st
  | j :: js, st => route_all ops cfg admT js (route_one ops cfg admT j st)

/-- The `while` loop of `qhfc::potency_testing`; `c` is `catchup_eval`
(compared before being incremented) and the loop runs while
`c < catchup_gen * |f|` and fewer than `detect_export_num` individuals
have been exported.  `fuel` is a structural bound chosen large enough by
the caller that the counter condition always stops the loop first. -/
def potency_loop {α : Type} (ops : Ops α) (cfg : Config) (admT : ℚ) :
    ℕ → ℕ → PTState α → PTState α
  | 0, _, st => st
  | fuel + 1, c, st =>
    if (c : ℚ) < cfg.catchup * (st.fpop.length : ℚ) ∧
        (st.exports.length : ℚ) < cfg.den then
      let r := random_split st.fpop 2 st.e
      let s := deterministic_crowding ops r.1 r.2.2
      let st1 := route_all ops cfg admT s.1
        { fpop := r.2.1, below := st.below, exports := st.exports, e := s.2 }
      potency_loop ops cfg admT fuel (c + 1) st1
    else st

/-- `qhfc::potency_testing` on tier `f` with `t` the tier above it and
`below` the tiers strictly below `f` (highest first): run the bounded
tournament loop, declare `f` potent when at least `detect_export_num`
individuals were exported, and rebuild `t` as the elitist survivors of
`t` plus the exports.  Returns `(potent, t', f', below', e')`. -/
def potency_testing {α : Type} (ops : Ops α) (cfg : Config) (t f : Tier α)
    (below : List (Tier α)) (e : Ext α) :
    Bool × Tier α × Tier α × List (Tier α) × Ext α :=
  let fuel := (Int.ceil (cfg.catchup * (f.pop.length : ℚ))).toNat + 1
  let st := potency_loop ops cfg t.adm fuel 0 ⟨f.pop, below, [], e⟩
  let potent : Bool := decide ((st.exports.length : ℚ) ≥ cfg.den)
  let next := elitism ops.fit (t.pop.length - st.exports.length) t.pop ++ st.exports
  (potent, { t with pop := next }, { f with pop := st.fpop }, st.below, st.e)

/-- The batch size `static_cast<std::size_t>(percent_refill * size)`
used at both cascade-refill call sites: the C++ cast truncates the
(non-negative) product toward zero. -/
def refillBatch (pct : ℚ) (sz : ℕ) : ℕ := (Int.floor (pct * (sz : ℚ))).toNat

/-- Progress tracking in `qhfc::breed_top`: after one internal update of
the top tier, if its maximum fitness exceeds `QHFC_LAST_PROGRESS_MAX`,
record the top tier's current update as `QHFC_LAST_PROGRESS_GEN` and the
new maximum.  Returns the updated `(last_progress_gen, last_progress_max)`. -/
def progress_track {α : Type} (ops : Ops α) (top1 : List α) (cu1 : ℕ)
    (lastGen lastMax : ℚ) : ℚ × ℚ :=
  let mx := listMax (top1.map ops.fit)
  if mx > lastMax then ((cu1 : ℚ), mx) else (lastGen, lastMax)

/-- The stagnation condition of `qhfc::breed_top`:
`top.current_update() - QHFC_LAST_PROGRESS_GEN >= QHFC_NO_PROGRESS_GEN`. -/
def stagnation_fires (cfg : Config) (cu1 lg : ℚ) : Bool := cu1 - lg ≥ cfg.npg

/-- State threaded through `qhfc::breed_top`: the top tier's population,
the tiers strictly below the top (highest first, bottom last), the top
tier's update counter, the progress tracker, and the external world. -/
structure BTState (α : Type) where
  top : List α
  belowTop : List (Tier α)
  cu : ℕ
  lastGen : ℚ
  lastMax : ℚ
  e : Ext α

/-- One iteration of the `qhfc::breed_top` loop: run the top tier's
internal update (incrementing its update counter), track progress of the
maximum fitness, and on stagnation import
`static_cast<std::size_t>(percent_refill * |top|)` individuals by
cascade refill and replace the non-elite part of the top tier by them. -/
def breed_top_step {α : Type} (ops : Ops α) (cfg : Config) (st : BTState α) :
    BTState α :=
  let u := ops.tierUpdate st.top st.e
  let cu1 := st.cu + 1
  let pm := progress_track ops u.1 cu1 st.lastGen st.lastMax
  if stagnation_fires cfg (cu1 : ℚ) pm.1 then
    let b := refillBatch cfg.pct u.1.length
    let r := import_from_below cfg.ps b st.belowTop u.2
    let top2 := elitism ops.fit (u.1.length - r.1.length) u.1 ++ r.1
    ⟨top2, r.2.1, cu1, pm.1, pm.2, r.2.2⟩
  else
    ⟨u.1, st.belowTop, cu1, pm.1, pm.2, u.2⟩

/-- The `qhfc::breed_top` loop, iterated `n` times (`n` is the number of
indices `i` with `(i : double) < QHFC_BREED_TOP_FREQ`). -/
def breed_top {α : Type} (ops : Ops α) (cfg : Config) :
    ℕ → BTState α → BTState α
  | 0, st => st
  | n + 1, st => breed_top ops cfg n (breed_top_step ops cfg st)

/-- The direct-refresh branch of `qhfc::operator()` for an impotent tier
`i`: cascade-import `static_cast<std::size_t>(percent_refill * |i|)`
individuals from below, shuffle `i`, truncate it to
`POPULATION_SIZE - batch`, append the imported batch, and run `i`'s
internal update once. -/
def refresh_tier {α : Type} (ops : Ops α) (cfg : Config) (i : Tier α)
    (below : List (Tier α)) (e : Ext α) : Tier α × List (Tier α) × Ext α :=
  let b := refillBatch cfg.pct i.pop.length
  let r := import_from_below cfg.ps b below e
  let s := shuffle i.pop r.2.2
  let u := ops.tierUpdate (s.1.take (cfg.ps - r.1.length) ++ r.1) s.2
  ({ i with pop := u.1 }, r.2.1, u.2)

/-- The adjacent-pair walk of `qhfc::operator()` over the tiers listed
from the top down: with `t` the current upper tier and the remaining
tiers below it, the loop body runs while `i+1 != rend`, i.e. while at
least two tiers lie below `t`; each step potency-tests `(t, i)`,
directly refreshes `i` when impotent, and moves down one rank.  `r` is
the rank of `t` and the returned list records the rank pairs that were
potency-tested; `fuel` is a structural bound (the caller passes the
number of tiers below `t`, which the body preserves). -/
def potency_walk {α : Type} (ops : Ops α) (cfg : Config) :
    ℕ → ℕ → Tier α → List (Tier α) → Ext α →
    List (Tier α) × Ext α × List (ℕ × ℕ)
  | 0, _, t, below, e => (t :: below, e, [])
  | fuel + 1, r, t, below, e =>
    match below with
    | [] => ([t], e, [])
    | [b] => ([t, b], e, [])
    | i :: m :: rest =>
      let pt := potency_testing ops cfg t i (m :: rest) e
      let step :=
        if pt.1 then (pt.2.2.1, pt.2.2.2.1, pt.2.2.2.2)
        else refresh_tier ops cfg pt.2.2.1 pt.2.2.2.1 pt.2.2.2.2
      let w := potency_walk ops cfg fuel (r - 1) step.1 step.2.1 step.2.2
      (pt.2.1 :: w.1, w.2.1, (r, r - 1) :: w.2.2)

/-- Metapopulation state for QHFC: the tiers listed bottom (rank 0)
first, the progress tracker (`QHFC_LAST_PROGRESS_GEN/MAX`), and the top
tier's update counter. -/
structure Meta (α : Type) where
  tiers : List (Tier α)
  lastGen : ℚ
  lastMax : ℚ
  topCu : ℕ

/-- The `breed_top(ea)` phase of `qhfc::operator()` on the
metapopulation state: run the breed-top loop on the top tier and the
tiers below it, and reassemble the metapopulation. -/
def qhfc_breed_phase {α : Type} (ops : Ops α) (cfg : Config) (m : Meta α)
    (e : Ext α) : Meta α × Ext α :=
  match m.tiers.reverse with
  | [] => (m, e)
  | top :: below =>
    let bt := breed_top ops cfg (Int.ceil cfg.btf).toNat
      ⟨top.pop, below, m.topCu, m.lastGen, m.lastMax, e⟩
    ({ tiers := ({ top with pop := bt.top } :: bt.belowTop).reverse,
       lastGen := bt.lastGen, lastMax := bt.lastMax, topCu := bt.cu }, bt.e)

/-- The adjacent-pair walk phase of `qhfc::operator()`: run
`potency_walk` over the tiers listed from the top down and reassemble
them bottom-first, also reporting the rank pairs potency-tested. -/
def qhfc_walk_phase {α : Type} (ops : Ops α) (cfg : Config)
    (tiers : List (Tier α)) (e : Ext α) :
    List (Tier α) × Ext α × List (ℕ × ℕ) :=
  match tiers.reverse with
  | [] => (tiers, e, [])
  | t :: rest =>
    let w := potency_walk ops cfg rest.length (tiers.length - 1) t rest e
    (w.1.reverse, w.2.1, w.2.2)

/-- One update of `qhfc::operator()` after initialization
(`ea.current_update() != 0`): breed the top tier, adjust the admission
levels, then walk the adjacent tier pairs from the top down, potency
testing each pair and directly refreshing impotent tiers.  Also returns
the list of rank pairs that were potency-tested. -/
def qhfc_update {α : Type} (ops : Ops α) (cfg : Config) (m : Meta α)
    (e : Ext α) : Meta α × Ext α × List (ℕ × ℕ) :=
  let bp := qhfc_breed_phase ops cfg m e
  let tiers2 := adjust_admission_levels ops.fit bp.1.tiers
  let w := qhfc_walk_phase ops cfg tiers2 bp.2
  ({ tiers := w.1, lastGen := bp.1.lastGen, lastMax := bp.1.lastMax,
     topCu := bp.1.topCu }, w.2.1, w.2.2)

/-- The rank pairs the walk of `qhfc::operator()` potency-tests, as a
function of the rank of the upper tier and the number of tiers below
it. -/
def walk_trace : ℕ → ℕ → List (ℕ × ℕ)
  | r, n + 2 => (r, r - 1) :: walk_trace (r - 1) (n + 1)
  | _, _ => []

/-- The rank pairs `qhfc::operator()` potency-tests in a metapopulation
of `K` tiers: `(K-1, K-2), (K-2, K-3), …, (2, 1)`. -/
def qhfc_tested_pairs (K : ℕ) : List (ℕ × ℕ) :=
  ((List.range' 2 (K - 2)).reverse).map (fun i => (i, i - 1))

/-! ### Concrete instances used as witnesses and counterexamples -/

/-- A concrete external world over `ℚ` individuals. -/
def wExt : Ext ℚ := ⟨fun _ => 0, 0, fun n => 100 + (n : ℚ), 0⟩

/-- Concrete external operators over `ℚ` individuals: fitness is the
individual itself, recombination copies the parents, mutation and the
internal tier update are the identity. -/
def wOps : Ops ℚ :=
  ⟨id, fun a b => a - b, fun a b => (a, b), id, fun pop e => (pop, e)⟩

/-- A concrete two-tier segment, both tiers at capacity 2. -/
def wTiers : List (Tier ℚ) := [⟨5, [6, 7]⟩, ⟨0, [1, 2]⟩]

/-- A concrete two-tier metapopulation (bottom first) whose top tier
does not trigger the admission-level rebalance: mean top fitness
`13/2` does not exceed `2*5 - 0 = 10`. -/
def bTiers : List (Tier ℚ) := [⟨0, [1, 2]⟩, ⟨5, [6, 7]⟩]

/-- Concrete external operators with constant fitness, so that every
crowding tournament is a fitness tie: recombination shifts both parents
by one, making offspring distinguishable from parents. -/
def cOps : Ops ℚ :=
  ⟨fun _ => 0, fun a b => a - b, fun a b => (a + 1, b + 1), id,
    fun pop e => (pop, e)⟩

/-- A concrete three-tier metapopulation whose top tier triggers the
admission-level rebalance: mean top fitness 20 exceeds
`2*10 - 5 = 15`. -/
def aTiers : List (Tier ℚ) := [⟨0, []⟩, ⟨5, []⟩, ⟨10, [20, 20]⟩]

/-- A concrete configuration with `population_size = 1` and
`no_progress_gen = 2`. -/
def eCfg : Config := ⟨1, 1, 1, 1, 1, 2⟩

/-- A concrete configuration with `population_size = 10` and
`percent_refill = 1/4`. -/
def dCfg : Config := ⟨10, 1, 1, 1 / 4, 1, 1⟩

/-- A concrete tier with ten individuals. -/
def dTier : Tier ℚ := ⟨0, [0, 1, 2, 3, 4, 5, 6, 7, 8, 9]⟩

/-- A concrete top-breeding state: the top tier's update counter is 2,
the last progress was recorded at update 0 with maximum 10, and the top
population `[5]` cannot improve on it. -/
def stW : BTState ℚ := ⟨[5], [⟨0, [7]⟩], 2, 0, 10, wExt⟩

/-- A concrete potency-testing routing state: empty tier-under-test
population, one bottom tier below it, nothing exported yet. -/
def rtSt : PTState ℚ := ⟨[], [⟨0, [7]⟩], [], wExt⟩

/-- A concrete three-tier metapopulation state. -/
def mW : Meta ℚ := ⟨aTiers, 0, 0, 0⟩

/-- A concrete configuration with `population_size = 2`. -/
def uCfg : Config := ⟨2, 1, 1, 1, 1, 10⟩

/-- A concrete three-tier metapopulation with every tier at capacity 2. -/
def uMeta : Meta ℚ := ⟨[⟨0, [1, 2]⟩, ⟨3, [3, 4]⟩, ⟨5, [5, 6]⟩], 0, 0, 0⟩

/-! ### Basic lemmas about the helper operations -/

theorem perm_eraseIdx {α : Type} :
    ∀ (l : List α) (i : ℕ) (a : α), l.get? i = some a → (a :: l.eraseIdx i).Perm l
  | [], i, a, h => by simp at h
  | x :: xs, 0, a, h => by
    simp only [List.get?] at h
    cases h
    simp [List.eraseIdx]
  | x :: xs, i + 1, a, h => by
    simp only [List.get?] at h
    have ih := perm_eraseIdx xs i a h
    rw [List.eraseIdx_cons_succ]
    exact (List.Perm.swap x a _).trans (ih.cons x)

theorem random_split_spec {α : Type} :
    ∀ (n : ℕ) (pop : List α) (e : Ext α), n ≤ pop.length →
      (random_split pop n e).1.length = n ∧
      ((random_split pop n e).1 ++ (random_split pop n e).2.1).Perm pop
  | 0, pop, e, _ => by simp [random_split]
  | n + 1, pop, e, h => by
    have hlen : 0 < pop.length := lt_of_lt_of_le (Nat.succ_pos n) h
    have hidx : (e.next.1 % pop.length) < pop.length := Nat.mod_lt _ hlen
    obtain ⟨a, ha⟩ : ∃ a, pop.get? (e.next.1 % pop.length) = some a := by
      rw [List.get?_eq_getElem?]
      exact ⟨pop[e.next.1 % pop.length], List.getElem?_eq_some_iff.2 ⟨hidx, rfl⟩⟩
    have herase : (pop.eraseIdx (e.next.1 % pop.length)).length = pop.length - 1 := by
      rw [List.length_eraseIdx]
      simp [hidx]
    have hn : n ≤ (pop.eraseIdx (e.next.1 % pop.length)).length := by
      rw [herase]
      omega
    have ih := random_split_spec n (pop.eraseIdx (e.next.1 % pop.length)) e.next.2 hn
    constructor
    · simp only [random_split, ha]
      simpa using ih.1
    · simp only [random_split, ha]
      have hperm := perm_eraseIdx pop (e.next.1 % pop.length) a ha
      exact List.Perm.trans (by simpa using ih.2.cons a) hperm

theorem random_split_length {α : Type} (n : ℕ) (pop : List α) (e : Ext α)
    (h : n ≤ pop.length) :
    (random_split pop n e).1.length = n ∧
      (random_split pop n e).2.1.length = pop.length - n := by
  obtain ⟨h1, h2⟩ := random_split_spec n pop e h
  refine ⟨h1, ?_⟩
  have := h2.length_eq
  simp only [List.length_append, h1] at this
  omega

theorem random_split_fresh {α : Type} :
    ∀ (n : ℕ) (pop : List α) (e : Ext α),
      (random_split pop n e).2.2.fresh = e.fresh ∧
      (random_split pop n e).2.2.fpos = e.fpos
  | 0, pop, e => by simp [random_split]
  | n + 1, pop, e => by
    cases h : pop.get? (e.next.1 % pop.length) with
    | none =>
      simp only [random_split, h]
      exact ⟨rfl, rfl⟩
    | some a =>
      have ih := random_split_fresh n (pop.eraseIdx (e.next.1 % pop.length)) e.next.2
      simp only [random_split, h]
      exact ih

theorem genFresh_spec {α : Type} :
    ∀ (n : ℕ) (e : Ext α),
      (genFresh n e).1 = (List.range n).map (fun j => e.fresh (e.fpos + j))
  | 0, e => by simp [genFresh]
  | n + 1, e => by
    have ih := genFresh_spec n (e.gen.2)
    simp only [Ext.gen] at ih
    simp only [genFresh, Ext.gen, ih, List.range_succ_eq_map, List.map_cons,
      List.map_map]
    refine congrArg₂ List.cons (by simp) ?_
    refine List.map_congr_left ?_
    intro j hj
    simp only [Function.comp_def]
    exact congrArg e.fresh (by omega)

theorem genFresh_length {α : Type} (n : ℕ) (e : Ext α) :
    (genFresh n e).1.length = n := by
  simp [genFresh_spec]

theorem fill_population_length {α : Type} (ps : ℕ) (pop : List α) (e : Ext α)
    (h : pop.length ≤ ps) : (fill_population ps pop e).1.length = ps := by
  simp only [fill_population, List.length_append, genFresh_length]
  omega

theorem elitism_length {α : Type} (fit : α → ℚ) (m : ℕ) (pop : List α)
    (h : m ≤ pop.length) : (elitism fit m pop).length = m := by
  simp only [elitism, List.length_take, List.length_insertionSort]
  omega

theorem shuffle_length {α : Type} (pop : List α) (e : Ext α) :
    (shuffle pop e).1.length = pop.length :=
  (random_split_length pop.length pop e le_rfl).1

theorem listMean_le_listMax : ∀ l : List ℚ, listMean l ≤ listMax l := by
  intro l
  have hsum : ∀ m : List ℚ, m.sum ≤ m.length * listMax m := by
    intro m
    induction m with
    | nil => simp
    | cons x xs ih =>
      cases xs with
      | nil => simp [listMax]
      | cons y ys =>
        have hx : x ≤ listMax (x :: y :: ys) := le_max_left _ _
        have hxs : listMax (y :: ys) ≤ listMax (x :: y :: ys) := le_max_right _ _
        have h2 : (y :: ys).sum ≤ ((y :: ys).length : ℚ) * listMax (x :: y :: ys) := by
          calc (y :: ys).sum ≤ ((y :: ys).length : ℚ) * listMax (y :: ys) := ih
            _ ≤ ((y :: ys).length : ℚ) * listMax (x :: y :: ys) := by
                apply mul_le_mul_of_nonneg_left hxs
                positivity
        calc (x :: (y :: ys)).sum = x + (y :: ys).sum := by simp
          _ ≤ listMax (x :: y :: ys) + ((y :: ys).length : ℚ) * listMax (x :: y :: ys) := by
              exact add_le_add hx h2
          _ = ((x :: y :: ys).length : ℚ) * listMax (x :: y :: ys) := by
              simp [List.length_cons]
              ring
  rcases l with - | ⟨x, xs⟩
  · simp [listMean, listMax]
  · have hlen : (0 : ℚ) < ((x :: xs).length : ℚ) := by
      simp only [List.length_cons]
      push_cast
      positivity
    rw [listMean, div_le_iff₀ hlen]
    calc (x :: xs).sum ≤ (x :: xs).length * listMax (x :: xs) := hsum _
      _ = listMax (x :: xs) * (x :: xs).length := by ring

/-! ### Lemmas about cascade refill (`qhfc::import_from_below`) -/

theorem import_from_below_tiers_length {α : Type} (ps n : ℕ) :
    ∀ (ts : List (Tier α)) (e : Ext α),
      (import_from_below ps n ts e).2.1.length = ts.length
  | [], _ => rfl
  | [_], _ => rfl
  | _ :: t2 :: rest, e => by
    simp only [import_from_below, List.length_cons]
    rw [import_from_below_tiers_length ps n (t2 :: rest)]
    simp

theorem import_from_below_cap {α : Type} (ps n : ℕ) (hn : n ≤ ps) :
    ∀ (ts : List (Tier α)) (e : Ext α), (∀ t ∈ ts, t.pop.length = ps) →
      ts ≠ [] →
      (import_from_below ps n ts e).1.length = n ∧
      (∀ t' ∈ (import_from_below ps n ts e).2.1, t'.pop.length = ps)
  | [], _, _, hne => absurd rfl hne
  | [t], e, hcap, _ => by
    have ht : t.pop.length = ps := hcap t (by simp)
    have hsplit := random_split_length n t.pop e (ht ▸ hn)
    refine ⟨hsplit.1, ?_⟩
    intro t' ht'
    simp only [import_from_below, List.mem_singleton] at ht'
    subst ht'
    exact fill_population_length ps _ _ (by omega)
  | t :: t2 :: rest, e, hcap, _ => by
    have ht : t.pop.length = ps := hcap t (by simp)
    have hsplit := random_split_length n t.pop e (ht ▸ hn)
    have ih := import_from_below_cap ps n hn (t2 :: rest) (random_split t.pop n e).2.2
      (fun u hu => hcap u (List.mem_cons_of_mem t hu)) (by simp)
    refine ⟨hsplit.1, ?_⟩
    intro t' ht'
    simp only [import_from_below, List.mem_cons] at ht'
    rcases ht' with h1 | h2
    · subst h1
      simp only [List.length_append]
      rw [hsplit.2, ih.1]
      omega
    · exact ih.2 t' h2

theorem import_from_below_struct {α : Type} (ps n : ℕ) (hn : n ≤ ps) :
    ∀ (ts : List (Tier α)) (e : Ext α), (∀ t ∈ ts, t.pop.length = ps) →
      ts ≠ [] →
      (import_from_below ps n ts e).1.Subperm (ts.getD 0 dummyTier).pop ∧
      (∀ i, i + 1 < ts.length →
        ∃ rem imp,
          ((import_from_below ps n ts e).2.1.getD i dummyTier).pop = rem ++ imp ∧
          rem.length = ps - n ∧ rem.Subperm (ts.getD i dummyTier).pop ∧
          imp.length = n ∧ imp.Subperm (ts.getD (i + 1) dummyTier).pop) ∧
      (∃ rem s,
        ((import_from_below ps n ts e).2.1.getD (ts.length - 1) dummyTier).pop =
          rem ++ (List.range n).map (fun j => e.fresh (s + j)) ∧
        rem.length = ps - n ∧
        rem.Subperm (ts.getD (ts.length - 1) dummyTier).pop)
  | [], _, _, hne => absurd rfl hne
  | [t], e, hcap, _ => by
    have ht : t.pop.length = ps := hcap t (by simp)
    have hsplit := random_split_spec n t.pop e (ht ▸ hn)
    have hlen := random_split_length n t.pop e (ht ▸ hn)
    have hfr := random_split_fresh n t.pop e
    refine ⟨?_, ?_, ?_⟩
    · exact ((List.sublist_append_left _ _).subperm).trans hsplit.2.subperm
    · intro i hi
      simp at hi
    · refine ⟨(random_split t.pop n e).2.1, (random_split t.pop n e).2.2.fpos, ?_, ?_, ?_⟩
      · simp only [import_from_below, List.length_singleton, Nat.sub_self,
          List.getD_cons_zero, fill_population]
        have hcnt : ps - (random_split t.pop n e).2.1.length = n := by
          rw [hlen.2, ht]
          omega
        rw [genFresh_spec, hcnt, hfr.1, hfr.2]
      · rw [hlen.2, ht]
      · simp only [List.length_singleton, Nat.sub_self, List.getD_cons_zero]
        exact ((List.sublist_append_right _ _).subperm).trans hsplit.2.subperm
  | t :: t2 :: rest, e, hcap, _ => by
    have ht : t.pop.length = ps := hcap t (by simp)
    have hsplit := random_split_spec n t.pop e (ht ▸ hn)
    have hlen := random_split_length n t.pop e (ht ▸ hn)
    have hfr := random_split_fresh n t.pop e
    have ih := import_from_below_struct ps n hn (t2 :: rest)
      (random_split t.pop n e).2.2
      (fun u hu => hcap u (List.mem_cons_of_mem t hu)) (by simp)
    have ihcap := import_from_below_cap ps n hn (t2 :: rest)
      (random_split t.pop n e).2.2
      (fun u hu => hcap u (List.mem_cons_of_mem t hu)) (by simp)
    refine ⟨?_, ?_, ?_⟩
    · simp only [import_from_below, List.getD_cons_zero]
      exact ((List.sublist_append_left _ _).subperm).trans hsplit.2.subperm
    · intro i hi
      match i with
      | 0 =>
        refine ⟨(random_split t.pop n e).2.1, (import_from_below ps n (t2 :: rest)
          (random_split t.pop n e).2.2).1, ?_, ?_, ?_, ?_, ?_⟩
        · simp [import_from_below]
        · rw [hlen.2, ht]
        · simp only [List.getD_cons_zero]
          exact ((List.sublist_append_right _ _).subperm).trans hsplit.2.subperm
        · exact ihcap.1
        · simp only [List.getD_cons_succ]
          exact ih.1
      | i + 1 =>
        have hi2 : i + 1 < (t2 :: rest).length := by
          simp only [List.length_cons] at hi ⊢
          omega
        obtain ⟨rem, imp, h1, h2, h3, h4, h5⟩ := ih.2.1 i hi2
        exact ⟨rem, imp, by simpa [import_from_below] using h1, h2, h3, h4, h5⟩
    · obtain ⟨rem, s, h1, h2, h3⟩ := ih.2.2
      refine ⟨rem, s, ?_, h2, ?_⟩
      · simp only [List.length_cons, Nat.add_sub_cancel]
        have : (t2 :: rest).length - 1 = rest.length := by simp
        rw [this] at h1
        rw [hfr.1] at h1
        simpa [import_from_below] using h1
      · have : (t2 :: rest).length - 1 = rest.length := by simp
        rw [this] at h3
        simpa using h3

theorem sum_pop_lengths_of_cap {α : Type} (ps : ℕ) :
    ∀ (l : List (Tier α)), (∀ t ∈ l, t.pop.length = ps) →
      (l.map (fun t => t.pop.length)).sum = l.length * ps
  | [], _ => by simp
  | t :: rest, h => by
    have ih := sum_pop_lengths_of_cap ps rest (fun u hu => h u (List.mem_cons_of_mem t hu))
    simp only [List.map_cons, List.sum_cons, ih, h t (by simp), List.length_cons]
    ring

/-- C4: a cascade refill `import_from_below(f, l, n)` on tiers at
capacity with `n ≤ population_size` removes exactly `n` individuals
from tier `f` (a sub-multiset of its population) and returns them;
every non-bottom tier of the segment ends as a remainder of its old
population plus `n` individuals pulled from the tier below it; the
bottom tier ends as a remainder of its old population plus freshly
generated individuals; and the total number of individuals residing in
the segment is unchanged. -/
theorem qhfc_import_from_below_conserves {α : Type} (ps n : ℕ)
    (ts : List (Tier α)) (e : Ext α)
    (hcap : ∀ t ∈ ts, t.pop.length = ps) (hn : n ≤ ps) (hne : ts ≠ []) :
    (import_from_below ps n ts e).1.length = n ∧
    (import_from_below ps n ts e).1.Subperm (ts.getD 0 dummyTier).pop ∧
    (∀ i, i + 1 < ts.length →
      ∃ rem imp,
        ((import_from_below ps n ts e).2.1.getD i dummyTier).pop = rem ++ imp ∧
        rem.length = ps - n ∧ rem.Subperm (ts.getD i dummyTier).pop ∧
        imp.length = n ∧ imp.Subperm (ts.getD (i + 1) dummyTier).pop) ∧
    (∃ rem s,
      ((import_from_below ps n ts e).2.1.getD (ts.length - 1) dummyTier).pop =
        rem ++ (List.range n).map (fun j => e.fresh (s + j)) ∧
      rem.length = ps - n ∧
      rem.Subperm (ts.getD (ts.length - 1) dummyTier).pop) ∧
    ((import_from_below ps n ts e).2.1.map (fun t => t.pop.length)).sum =
      (ts.map (fun t => t.pop.length)).sum := by
  obtain ⟨hlen, hcap'⟩ := import_from_below_cap ps n hn ts e hcap hne
  obtain ⟨h1, h2, h3⟩ := import_from_below_struct ps n hn ts e hcap hne
  refine ⟨hlen, h1, h2, h3, ?_⟩
  rw [sum_pop_lengths_of_cap ps _ hcap', sum_pop_lengths_of_cap ps _ hcap,
    import_from_below_tiers_length]

/-- Witness for C4: the hypotheses hold, and the theorem applies, at the
concrete two-tier segment `wTiers` with `n = 1`. -/
theorem qhfc_import_from_below_conserves_witness :
    ((∀ t ∈ wTiers, t.pop.length = 2) ∧ 1 ≤ 2 ∧ wTiers ≠ []) ∧
    ((import_from_below 2 1 wTiers wExt).1.length = 1 ∧
      ((import_from_below 2 1 wTiers wExt).2.1.map (fun t => t.pop.length)).sum =
        (wTiers.map (fun t => t.pop.length)).sum) := by
  have h1 : ∀ t ∈ wTiers, t.pop.length = 2 := by
    intro t ht
    simp only [wTiers, List.mem_cons, List.mem_singleton] at ht
    rcases ht with h | h | h
    · rw [h]
      rfl
    · rw [h]
      rfl
    · simp at h
  have h3 : wTiers ≠ [] := by simp [wTiers]
  have main := qhfc_import_from_below_conserves 2 1 wTiers wExt h1 (by omega) h3
  exact ⟨⟨h1, by omega, h3⟩, main.1, main.2.2.2.2⟩

/-! ### Lemmas about admission-level adjustment -/

theorem admMap_length {α : Type} (fmin fmax K : ℚ) :
    ∀ (s : ℕ) (l : List (Tier α)), (admMap fmin fmax K s l).length = l.length
  | _, [] => rfl
  | s, t :: rest => by
    simp only [admMap, List.length_cons]
    rw [admMap_length fmin fmax K (s + 1) rest]

theorem admMap_getD {α : Type} (fmin fmax K : ℚ) :
    ∀ (l : List (Tier α)) (s i : ℕ), i < l.length →
      (admMap fmin fmax K s l).getD i dummyTier =
        if 1 ≤ s + i then
          { l.getD i dummyTier with
            adm := fmin + ((s + i : ℕ) : ℚ) * (fmax - fmin) / K }
        else l.getD i dummyTier
  | [], _, i, h => by simp at h
  | t :: rest, s, 0, _ => by
    simp [admMap]
  | t :: rest, s, i + 1, h => by
    have ih := admMap_getD fmin fmax K rest (s + 1) i (by simp at h; omega)
    simp only [admMap, List.getD_cons_succ]
    rw [ih]
    have harith : s + 1 + i = s + (i + 1) := by omega
    rw [harith]

theorem admMap_map_pop {α : Type} (fmin fmax K : ℚ) :
    ∀ (s : ℕ) (l : List (Tier α)),
      (admMap fmin fmax K s l).map (fun t => t.pop) = l.map (fun t => t.pop)
  | _, [] => rfl
  | s, t :: rest => by
    simp only [admMap, List.map_cons]
    rw [admMap_map_pop fmin fmax K (s + 1) rest]
    refine congrArg₂ List.cons ?_ rfl
    split <;> rfl

theorem adjust_length {α : Type} (fit : α → ℚ) (tiers : List (Tier α)) :
    (adjust_admission_levels fit tiers).length = tiers.length := by
  unfold adjust_admission_levels
  split
  · exact admMap_length _ _ _ _ _
  · rfl

theorem adjust_map_pop {α : Type} (fit : α → ℚ) (tiers : List (Tier α)) :
    (adjust_admission_levels fit tiers).map (fun t => t.pop) =
      tiers.map (fun t => t.pop) := by
  unfold adjust_admission_levels
  split
  · exact admMap_map_pop _ _ _ _ _
  · rfl

theorem adjust_getD_of_trigger {α : Type} (fit : α → ℚ) (tiers : List (Tier α))
    (htr : adjust_trigger fit tiers = true) (i : ℕ) (hi : i < tiers.length) :
    (adjust_admission_levels fit tiers).getD i dummyTier =
      if 1 ≤ i then
        { tiers.getD i dummyTier with
          adm := (tiers.getD 0 dummyTier).adm + (i : ℚ) *
            (listMax (((tiers.getD (tiers.length - 1) dummyTier).pop).map fit) -
              (tiers.getD 0 dummyTier).adm) / (tiers.length : ℚ) }
      else tiers.getD i dummyTier := by
  unfold adjust_admission_levels
  rw [htr]
  simp only [if_true]
  rw [admMap_getD _ _ _ _ 0 i hi]
  simp

theorem adjust_of_not_trigger {α : Type} (fit : α → ℚ) (tiers : List (Tier α))
    (htr : adjust_trigger fit tiers = false) :
    adjust_admission_levels fit tiers = tiers := by
  unfold adjust_admission_levels
  rw [htr]
  simp

/-- C5: `adjust_admission_levels` rebalances exactly when the mean
fitness of the top tier exceeds `2*admission(top) -
admission(second_from_top)`; when it rebalances, the admission level of
every rank `1 ≤ r < K` becomes
`admission(0) + r*(max_top - admission(0))/K`, and when it does not,
every tier is left unchanged. -/
theorem qhfc_adjust_admission_spec {α : Type} (fit : α → ℚ)
    (tiers : List (Tier α)) :
    (listMean (((tiers.getD (tiers.length - 1) dummyTier).pop).map fit) >
        2 * (tiers.getD (tiers.length - 1) dummyTier).adm -
          (tiers.getD (tiers.length - 2) dummyTier).adm →
      ∀ i, 1 ≤ i → i < tiers.length →
        ((adjust_admission_levels fit tiers).getD i dummyTier).adm =
          (tiers.getD 0 dummyTier).adm + (i : ℚ) *
            (listMax (((tiers.getD (tiers.length - 1) dummyTier).pop).map fit) -
              (tiers.getD 0 dummyTier).adm) / (tiers.length : ℚ)) ∧
    (¬(listMean (((tiers.getD (tiers.length - 1) dummyTier).pop).map fit) >
        2 * (tiers.getD (tiers.length - 1) dummyTier).adm -
          (tiers.getD (tiers.length - 2) dummyTier).adm) →
      adjust_admission_levels fit tiers = tiers) := by
  constructor
  · intro hcond i h1 hi
    have htr : adjust_trigger fit tiers = true := by
      unfold adjust_trigger
      exact decide_eq_true hcond
    rw [adjust_getD_of_trigger fit tiers htr i hi]
    rw [if_pos h1]
  · intro hcond
    have htr : adjust_trigger fit tiers = false := by
      unfold adjust_trigger
      exact decide_eq_false hcond
    exact adjust_of_not_trigger fit tiers htr

/-- Witness for C5: at the concrete metapopulation `aTiers` the
rebalance condition holds (`20 > 15`) and the theorem computes the apex
admission level `0 + 2*(20-0)/3 = 40/3`. -/
theorem qhfc_adjust_admission_spec_witness :
    (listMean (((aTiers.getD (aTiers.length - 1) dummyTier).pop).map id) >
        2 * (aTiers.getD (aTiers.length - 1) dummyTier).adm -
          (aTiers.getD (aTiers.length - 2) dummyTier).adm) ∧
    ((adjust_admission_levels id aTiers).getD 2 dummyTier).adm = 40 / 3 := by
  have hcond : listMean (((aTiers.getD (aTiers.length - 1) dummyTier).pop).map id) >
      2 * (aTiers.getD (aTiers.length - 1) dummyTier).adm -
        (aTiers.getD (aTiers.length - 2) dummyTier).adm := by
    show listMean (([20, 20] : List ℚ).map id) > 2 * 10 - 5
    simp only [List.map_cons, List.map_nil, id_eq, listMean, List.sum_cons,
      List.sum_nil, List.length_cons, List.length_nil]
    norm_num
  refine ⟨hcond, ?_⟩
  have h := (qhfc_adjust_admission_spec id aTiers).1 hcond 2 (by omega)
    (by show 2 < 3; omega)
  rw [h]
  show (0 : ℚ) + 2 * (listMax (([20, 20] : List ℚ).map id) - 0) / 3 = 40 / 3
  simp only [List.map_cons, List.map_nil, id_eq, listMax]
  norm_num

/-- Counterexample for C8: at `aTiers` the rebalance fires and the
apex tier's admission level is rewritten from `10` to `40/3`. -/
theorem qhfc_adjust_rewrites_apex :
    ((adjust_admission_levels id aTiers).getD 2 dummyTier).adm ≠
      (aTiers.getD 2 dummyTier).adm := by
  have htr : adjust_trigger id aTiers = true := by
    unfold adjust_trigger
    apply decide_eq_true
    show listMean (([20, 20] : List ℚ).map id) > 2 * 10 - 5
    simp only [List.map_cons, List.map_nil, id_eq, listMean, List.sum_cons,
      List.sum_nil, List.length_cons, List.length_nil]
    norm_num
  rw [adjust_getD_of_trigger id aTiers htr 2 (by show 2 < 3; omega)]
  rw [if_pos (by omega)]
  show (0 : ℚ) + 2 * (listMax (([20, 20] : List ℚ).map id) - 0) / 3 ≠ 10
  simp only [List.map_cons, List.map_nil, id_eq, listMax]
  norm_num

/-- C8 (amended): `adjust_admission_levels` mutates no tier population
and leaves the bottom tier's admission level unchanged; when it does not
rebalance every tier is unchanged, and when it rebalances it writes the
admission levels of every rank `1 ≤ r < K` — including the apex rank
`K-1`. -/
theorem qhfc_adjust_frame {α : Type} (fit : α → ℚ) (tiers : List (Tier α)) :
    (adjust_admission_levels fit tiers).map (fun t => t.pop) =
      tiers.map (fun t => t.pop) ∧
    ((adjust_admission_levels fit tiers).getD 0 dummyTier).adm =
      (tiers.getD 0 dummyTier).adm ∧
    (adjust_trigger fit tiers = false →
      adjust_admission_levels fit tiers = tiers) ∧
    (adjust_trigger fit tiers = true →
      ∀ i, 1 ≤ i → i < tiers.length →
        ((adjust_admission_levels fit tiers).getD i dummyTier).adm =
          (tiers.getD 0 dummyTier).adm + (i : ℚ) *
            (listMax (((tiers.getD (tiers.length - 1) dummyTier).pop).map fit) -
              (tiers.getD 0 dummyTier).adm) / (tiers.length : ℚ)) := by
  refine ⟨adjust_map_pop fit tiers, ?_, adjust_of_not_trigger fit tiers, ?_⟩
  · cases htr : adjust_trigger fit tiers with
    | false => rw [adjust_of_not_trigger fit tiers htr]
    | true =>
      cases tiers with
      | nil =>
        unfold adjust_admission_levels
        split <;> rfl
      | cons t rest =>
        rw [adjust_getD_of_trigger fit (t :: rest) htr 0 (by simp)]
        rw [if_neg (by omega)]
  · intro htr i h1 hi
    rw [adjust_getD_of_trigger fit tiers htr i hi, if_pos h1]

/-- Witness for C8 (amended): the non-trigger branch of the theorem at a
concrete metapopulation whose top tier does not trigger the rebalance. -/
theorem qhfc_adjust_frame_witness :
    adjust_trigger id bTiers = false ∧
    adjust_admission_levels id bTiers = bTiers := by
  have htr : adjust_trigger id bTiers = false := by
    unfold adjust_trigger
    apply decide_eq_false
    show ¬(listMean (([6, 7] : List ℚ).map id) > 2 * 5 - 0)
    simp only [List.map_cons, List.map_nil, id_eq, listMean, List.sum_cons,
      List.sum_nil, List.length_cons, List.length_nil]
    norm_num
  exact ⟨htr, (qhfc_adjust_frame id bTiers).2.2.1 htr⟩

/-- C9: calling `adjust_admission_levels` twice in a row, with no
intervening mutation, is the same as calling it once: the second call
never triggers a further redistribution (its rebalance condition reduces
to `mean_top > max_top`, which is impossible) and changes nothing. -/
theorem qhfc_adjust_idempotent {α : Type} (fit : α → ℚ) (tiers : List (Tier α))
    (h2 : 2 ≤ tiers.length) :
    adjust_trigger fit (adjust_admission_levels fit tiers) = false ∧
    adjust_admission_levels fit (adjust_admission_levels fit tiers) =
      adjust_admission_levels fit tiers := by
  cases htr : adjust_trigger fit tiers with
  | false =>
    rw [adjust_of_not_trigger fit tiers htr]
    exact ⟨htr, adjust_of_not_trigger fit tiers htr⟩
  | true =>
    set r := adjust_admission_levels fit tiers with hr
    have hK : r.length = tiers.length := adjust_length fit tiers
    have hKq : ((tiers.length : ℚ)) ≠ 0 := Nat.cast_ne_zero.2 (by omega)
    have hc1 : (((tiers.length - 1 : ℕ)) : ℚ) = (tiers.length : ℚ) - 1 :=
      Nat.cast_sub (by omega)
    have hc2 : (((tiers.length - 2 : ℕ)) : ℚ) = (tiers.length : ℚ) - 2 :=
      Nat.cast_sub h2
    have hpop : (r.getD (tiers.length - 1) dummyTier).pop =
        (tiers.getD (tiers.length - 1) dummyTier).pop := by
      rw [hr, adjust_getD_of_trigger fit tiers htr (tiers.length - 1) (by omega)]
      split <;> rfl
    have hM1 : (r.getD (tiers.length - 1) dummyTier).adm =
        (tiers.getD 0 dummyTier).adm + ((tiers.length : ℚ) - 1) *
          (listMax (((tiers.getD (tiers.length - 1) dummyTier).pop).map fit) -
            (tiers.getD 0 dummyTier).adm) / (tiers.length : ℚ) := by
      rw [hr, adjust_getD_of_trigger fit tiers htr (tiers.length - 1) (by omega),
        if_pos (by omega)]
      rw [← hc1]
    have hM2 : (r.getD (tiers.length - 2) dummyTier).adm =
        (tiers.getD 0 dummyTier).adm + ((tiers.length : ℚ) - 2) *
          (listMax (((tiers.getD (tiers.length - 1) dummyTier).pop).map fit) -
            (tiers.getD 0 dummyTier).adm) / (tiers.length : ℚ) := by
      rw [hr, adjust_getD_of_trigger fit tiers htr (tiers.length - 2) (by omega)]
      by_cases hcase : 1 ≤ tiers.length - 2
      · rw [if_pos hcase, ← hc2]
      · have h20 : tiers.length - 2 = 0 := by omega
        rw [if_neg hcase, h20]
        have h2q : ((tiers.length : ℚ)) - 2 = 0 := by
          have : tiers.length = 2 := by omega
          rw [this]
          norm_num
        rw [h2q]
        ring
    have hmean : ¬(listMean (((r.getD (r.length - 1) dummyTier).pop).map fit) >
        2 * (r.getD (r.length - 1) dummyTier).adm -
          (r.getD (r.length - 2) dummyTier).adm) := by
      rw [hK, hpop, hM1, hM2]
      have key : 2 * ((tiers.getD 0 dummyTier).adm + ((tiers.length : ℚ) - 1) *
            (listMax (((tiers.getD (tiers.length - 1) dummyTier).pop).map fit) -
              (tiers.getD 0 dummyTier).adm) / (tiers.length : ℚ)) -
          ((tiers.getD 0 dummyTier).adm + ((tiers.length : ℚ) - 2) *
            (listMax (((tiers.getD (tiers.length - 1) dummyTier).pop).map fit) -
              (tiers.getD 0 dummyTier).adm) / (tiers.length : ℚ)) =
          listMax (((tiers.getD (tiers.length - 1) dummyTier).pop).map fit) := by
        field_simp
        ring
      rw [key]
      exact not_lt.2 (listMean_le_listMax _)
    have htr2 : adjust_trigger fit r = false := by
      unfold adjust_trigger
      exact decide_eq_false hmean
    exact ⟨htr2, adjust_of_not_trigger fit r htr2⟩

/-- Witness for C9: the theorem applies at the concrete three-tier
metapopulation `aTiers`. -/
theorem qhfc_adjust_idempotent_witness :
    2 ≤ aTiers.length ∧
    (adjust_trigger id (adjust_admission_levels id aTiers) = false ∧
      adjust_admission_levels id (adjust_admission_levels id aTiers) =
        adjust_admission_levels id aTiers) := by
  have hlen : 2 ≤ aTiers.length := by
    show 2 ≤ 3
    omega
  exact ⟨hlen, qhfc_adjust_idempotent id aTiers hlen⟩

/-- C10: in every deterministic-crowding tournament pair, a parent
survives exactly when its fitness is strictly greater than its paired
offspring's; on a tie (or any non-strict comparison) the offspring
replaces the parent.  The two survivors of the pair are exactly what the
loop pushes into the next generation. -/
theorem deterministic_crowding_survivor_rule {α : Type} (ops : Ops α)
    (p0 p1 : α) :
    (ops.fit p0 > ops.fit (paired_offspring ops p0 p1).1 →
      (dc_pair ops p0 p1).1 = p0) ∧
    (ops.fit p0 ≤ ops.fit (paired_offspring ops p0 p1).1 →
      (dc_pair ops p0 p1).1 = (paired_offspring ops p0 p1).1) ∧
    (ops.fit p1 > ops.fit (paired_offspring ops p0 p1).2 →
      (dc_pair ops p0 p1).2 = p1) ∧
    (ops.fit p1 ≤ ops.fit (paired_offspring ops p0 p1).2 →
      (dc_pair ops p0 p1).2 = (paired_offspring ops p0 p1).2) ∧
    dc_pairs ops [p0, p1] = [(dc_pair ops p0 p1).1, (dc_pair ops p0 p1).2] := by
  obtain ⟨c0, c1, hc⟩ : ∃ c0 c1, paired_offspring ops p0 p1 = (c0, c1) :=
    ⟨_, _, rfl⟩
  have hd : dc_pair ops p0 p1 =
      ((if ops.fit p0 > ops.fit c0 then p0 else c0),
       (if ops.fit p1 > ops.fit c1 then p1 else c1)) := by
    have hsplit : dc_pair ops p0 p1 =
        ((if ops.fit p0 > ops.fit (paired_offspring ops p0 p1).1 then p0
          else (paired_offspring ops p0 p1).1),
         (if ops.fit p1 > ops.fit (paired_offspring ops p0 p1).2 then p1
          else (paired_offspring ops p0 p1).2)) := rfl
    rw [hsplit, hc]
  have h1 : (dc_pair ops p0 p1).1 = if ops.fit p0 > ops.fit c0 then p0 else c0 := by
    rw [hd]
  have h2 : (dc_pair ops p0 p1).2 = if ops.fit p1 > ops.fit c1 then p1 else c1 := by
    rw [hd]
  refine ⟨?_, ?_, ?_, ?_, rfl⟩
  · intro h
    rw [hc] at h
    rw [h1, if_pos h]
  · intro h
    rw [hc] at h
    rw [hc, h1, if_neg (not_lt.2 h)]
  · intro h
    rw [hc] at h
    rw [h2, if_pos h]
  · intro h
    rw [hc] at h
    rw [hc, h2, if_neg (not_lt.2 h)]

/-- Witness for C10: with constant fitness every comparison is a tie,
and at parents `3, 5` (offspring `4, 6`) the first survivor is the
paired offspring `4`, not the parent. -/
theorem deterministic_crowding_survivor_rule_witness :
    cOps.fit 3 ≤ cOps.fit (paired_offspring cOps 3 5).1 ∧
    (dc_pair cOps 3 5).1 = (paired_offspring cOps 3 5).1 ∧
    (paired_offspring cOps 3 5).1 = 4 := by
  have hle : cOps.fit 3 ≤ cOps.fit (paired_offspring cOps 3 5).1 := le_refl 0
  refine ⟨hle, (deterministic_crowding_survivor_rule cOps 3 5).2.1 hle, ?_⟩
  show (if cOps.sim 3 (3 + 1) < cOps.sim 3 (5 + 1) then
      ((5 : ℚ) + 1, (3 : ℚ) + 1) else ((3 : ℚ) + 1, (5 : ℚ) + 1)).1 = 4
  rw [if_neg]
  · norm_num
  · show ¬((3 : ℚ) - (3 + 1) < 3 - (5 + 1))
    norm_num

/-! ### Lemmas about top breeding and stagnation -/

theorem breed_top_step_of_fires {α : Type} (ops : Ops α) (cfg : Config)
    (st : BTState α)
    (h : stagnation_fires cfg ((st.cu + 1 : ℕ) : ℚ)
      (progress_track ops (ops.tierUpdate st.top st.e).1 (st.cu + 1)
        st.lastGen st.lastMax).1 = true) :
    breed_top_step ops cfg st =
      ⟨elitism ops.fit ((ops.tierUpdate st.top st.e).1.length -
          (import_from_below cfg.ps
            (refillBatch cfg.pct (ops.tierUpdate st.top st.e).1.length)
            st.belowTop (ops.tierUpdate st.top st.e).2).1.length)
          (ops.tierUpdate st.top st.e).1 ++
          (import_from_below cfg.ps
            (refillBatch cfg.pct (ops.tierUpdate st.top st.e).1.length)
            st.belowTop (ops.tierUpdate st.top st.e).2).1,
        (import_from_below cfg.ps
          (refillBatch cfg.pct (ops.tierUpdate st.top st.e).1.length)
          st.belowTop (ops.tierUpdate st.top st.e).2).2.1,
        st.cu + 1,
        (progress_track ops (ops.tierUpdate st.top st.e).1 (st.cu + 1)
          st.lastGen st.lastMax).1,
        (progress_track ops (ops.tierUpdate st.top st.e).1 (st.cu + 1)
          st.lastGen st.lastMax).2,
        (import_from_below cfg.ps
          (refillBatch cfg.pct (ops.tierUpdate st.top st.e).1.length)
          st.belowTop (ops.tierUpdate st.top st.e).2).2.2⟩ := by
  simp only [breed_top_step]
  rw [h]
  simp

theorem breed_top_step_of_not_fires {α : Type} (ops : Ops α) (cfg : Config)
    (st : BTState α)
    (h : stagnation_fires cfg ((st.cu + 1 : ℕ) : ℚ)
      (progress_track ops (ops.tierUpdate st.top st.e).1 (st.cu + 1)
        st.lastGen st.lastMax).1 = false) :
    breed_top_step ops cfg st =
      ⟨(ops.tierUpdate st.top st.e).1, st.belowTop, st.cu + 1,
        (progress_track ops (ops.tierUpdate st.top st.e).1 (st.cu + 1)
          st.lastGen st.lastMax).1,
        (progress_track ops (ops.tierUpdate st.top st.e).1 (st.cu + 1)
          st.lastGen st.lastMax).2,
        (ops.tierUpdate st.top st.e).2⟩ := by
  simp only [breed_top_step]
  rw [h]
  simp

/-- C6 (amended): after the internal update and progress tracking of one
`breed_top` iteration, the stagnation refill fires exactly when
`current_update - last_progress_update ≥ no_progress_gen`: it never
fires when the difference is smaller, it fires when the difference
equals `no_progress_gen`, and it fires again on every later update on
which no new fitness progress has been recorded. -/
theorem qhfc_stagnation_trigger_iff {α : Type} (ops : Ops α) (cfg : Config)
    (st : BTState α) :
    (stagnation_fires cfg ((st.cu + 1 : ℕ) : ℚ)
        (progress_track ops (ops.tierUpdate st.top st.e).1 (st.cu + 1)
          st.lastGen st.lastMax).1 = true ↔
      ((st.cu + 1 : ℕ) : ℚ) -
          (progress_track ops (ops.tierUpdate st.top st.e).1 (st.cu + 1)
            st.lastGen st.lastMax).1 ≥ cfg.npg) ∧
    (((st.cu + 1 : ℕ) : ℚ) -
        (progress_track ops (ops.tierUpdate st.top st.e).1 (st.cu + 1)
          st.lastGen st.lastMax).1 < cfg.npg →
      (breed_top_step ops cfg st).top = (ops.tierUpdate st.top st.e).1 ∧
      (breed_top_step ops cfg st).belowTop = st.belowTop) ∧
    (((st.cu + 1 : ℕ) : ℚ) -
        (progress_track ops (ops.tierUpdate st.top st.e).1 (st.cu + 1)
          st.lastGen st.lastMax).1 ≥ cfg.npg →
      (breed_top_step ops cfg st).top =
        elitism ops.fit ((ops.tierUpdate st.top st.e).1.length -
            (import_from_below cfg.ps
              (refillBatch cfg.pct (ops.tierUpdate st.top st.e).1.length)
              st.belowTop (ops.tierUpdate st.top st.e).2).1.length)
          (ops.tierUpdate st.top st.e).1 ++
          (import_from_below cfg.ps
            (refillBatch cfg.pct (ops.tierUpdate st.top st.e).1.length)
            st.belowTop (ops.tierUpdate st.top st.e).2).1) := by
  refine ⟨?_, ?_, ?_⟩
  · unfold stagnation_fires
    exact decide_eq_true_iff
  · intro h
    rw [breed_top_step_of_not_fires ops cfg st (decide_eq_false (not_le.2 h))]
    exact ⟨rfl, rfl⟩
  · intro h
    rw [breed_top_step_of_fires ops cfg st (decide_eq_true h)]

/-- Counterexample for C6: at the concrete state `stW` the update
counter reaches 3 while the last progress update stays 0, so
`current_update - last_progress_update = 3 = no_progress_gen + 1`, no
new progress is recorded, and the stagnation refill nevertheless fires
(the top population `[5]` is replaced by the cascade import `[7]`) —
the trigger is `≥`, not `==`. -/
theorem qhfc_stagnation_fires_late :
    progress_track wOps [(5 : ℚ)] 3 0 10 = (0, 10) ∧
    ((3 : ℚ) - 0 = eCfg.npg + 1) ∧
    stagnation_fires eCfg 3 0 = true ∧
    (breed_top_step wOps eCfg stW).top = [7] := by
  have hpm : progress_track wOps [(5 : ℚ)] 3 0 10 = (0, 10) := by
    unfold progress_track
    have hneg : ¬(listMax (List.map wOps.fit [5]) > 10) := by
      show ¬(listMax [(5 : ℚ)] > 10)
      unfold listMax
      norm_num
    rw [if_neg hneg]
  refine ⟨hpm, ?_, ?_, ?_⟩
  · show (3 : ℚ) - 0 = 2 + 1
    norm_num
  · unfold stagnation_fires
    apply decide_eq_true
    show (3 : ℚ) - 0 ≥ 2
    norm_num
  · have hfires : stagnation_fires eCfg ((stW.cu + 1 : ℕ) : ℚ)
        (progress_track wOps (wOps.tierUpdate stW.top stW.e).1 (stW.cu + 1)
          stW.lastGen stW.lastMax).1 = true := by
      have hstep : progress_track wOps (wOps.tierUpdate stW.top stW.e).1
          (stW.cu + 1) stW.lastGen stW.lastMax = (0, 10) := hpm
      rw [hstep]
      unfold stagnation_fires
      apply decide_eq_true
      show ((3 : ℕ) : ℚ) - 0 ≥ 2
      norm_num
    rw [breed_top_step_of_fires wOps eCfg stW hfires]
    have himp : (import_from_below eCfg.ps
        (refillBatch eCfg.pct (wOps.tierUpdate stW.top stW.e).1.length)
        stW.belowTop (wOps.tierUpdate stW.top stW.e).2).1 = [7] := by
      have hb : refillBatch eCfg.pct (wOps.tierUpdate stW.top stW.e).1.length = 1 := by
        show (Int.floor (eCfg.pct * ((1 : ℕ) : ℚ))).toNat = 1
        norm_num [eCfg]
      rw [hb]
      show (import_from_below 1 1 [⟨0, [7]⟩] wExt).1 = [7]
      simp [import_from_below, random_split, wExt, Ext.next]
    rw [himp]
    have hel : elitism wOps.fit
        ((wOps.tierUpdate stW.top stW.e).1.length - [(7 : ℚ)].length)
        (wOps.tierUpdate stW.top stW.e).1 = [] := by
      show elitism wOps.fit (1 - 1) [5] = []
      simp [elitism]
    rw [hel]
    rfl

/-- Witness for C6 (amended): the no-fire branch of the theorem at a
concrete state one update after progress (`1 - 0 < 2`). -/
theorem qhfc_stagnation_trigger_iff_witness :
    (((1 : ℕ) : ℚ) - (progress_track wOps
        (wOps.tierUpdate [(5 : ℚ)] wExt).1 1 0 10).1 < eCfg.npg) ∧
    ((breed_top_step wOps eCfg ⟨[5], [⟨0, [7]⟩], 0, 0, 10, wExt⟩).top = [5] ∧
      (breed_top_step wOps eCfg ⟨[5], [⟨0, [7]⟩], 0, 0, 10, wExt⟩).belowTop =
        [⟨0, [7]⟩]) := by
  have hpm : progress_track wOps (wOps.tierUpdate [(5 : ℚ)] wExt).1 1 0 10 =
      (0, 10) := by
    unfold progress_track
    have hneg : ¬(listMax (List.map wOps.fit (wOps.tierUpdate [(5 : ℚ)] wExt).1) > 10) := by
      show ¬(listMax [(5 : ℚ)] > 10)
      unfold listMax
      norm_num
    rw [if_neg hneg]
  have hlt : ((1 : ℕ) : ℚ) - (progress_track wOps
      (wOps.tierUpdate [(5 : ℚ)] wExt).1 1 0 10).1 < eCfg.npg := by
    rw [hpm]
    show ((1 : ℕ) : ℚ) - 0 < 2
    norm_num
  exact ⟨hlt, (qhfc_stagnation_trigger_iff wOps eCfg
    ⟨[5], [⟨0, [7]⟩], 0, 0, 10, wExt⟩).2.1 hlt⟩

/-- Counterexample for C7: with `percent_refill = 1/4` and tier size 10
the code imports `static_cast<std::size_t>(0.25 * 10) = 2` individuals,
but `ceil(0.25 * 10) = 3`. -/
theorem qhfc_refill_batch_not_ceil :
    refillBatch (1 / 4) 10 = 2 ∧
    Int.ceil ((1 / 4 : ℚ) * ((10 : ℕ) : ℚ)) = 3 ∧ (2 : ℤ) ≠ 3 := by
  refine ⟨?_, ?_, by omega⟩
  · unfold refillBatch
    have : Int.floor ((1 / 4 : ℚ) * ((10 : ℕ) : ℚ)) = 2 := by
      rw [Int.floor_eq_iff]
      constructor
      · push_cast
        norm_num
      · push_cast
        norm_num
    rw [this]
    rfl
  · rw [Int.ceil_eq_iff]
    constructor
    · push_cast
      norm_num
    · push_cast
      norm_num

/-- C7 (amended): whenever a cascade refill batch is requested — on
stagnation in `breed_top` or when directly refreshing an impotent tier —
the batch size is `static_cast<std::size_t>(percent_refill * size)`,
i.e. the floor (truncation) of the product, and with tiers at capacity
that many individuals are imported. -/
theorem qhfc_refill_batch_floor {α : Type} (cfg : Config) (i : Tier α)
    (below : List (Tier α)) (e : Ext α)
    (hcap : ∀ t ∈ below, t.pop.length = cfg.ps) (hne : below ≠ [])
    (hb : refillBatch cfg.pct i.pop.length ≤ cfg.ps) :
    (import_from_below cfg.ps (refillBatch cfg.pct i.pop.length)
        below e).1.length =
      (Int.floor (cfg.pct * (i.pop.length : ℚ))).toNat :=
  (import_from_below_cap cfg.ps _ hb below e hcap hne).1

/-- Witness for C7 (amended): at `percent_refill = 1/4`, tier size 10
and a one-tier segment at capacity 10, exactly
`floor(0.25*10) = 2` individuals are imported. -/
theorem qhfc_refill_batch_floor_witness :
    ((∀ t ∈ [dTier], t.pop.length = dCfg.ps) ∧ ([dTier] : List (Tier ℚ)) ≠ [] ∧
      refillBatch dCfg.pct dTier.pop.length ≤ dCfg.ps) ∧
    (import_from_below dCfg.ps (refillBatch dCfg.pct dTier.pop.length)
        [dTier] wExt).1.length =
      (Int.floor (dCfg.pct * (dTier.pop.length : ℚ))).toNat := by
  have hfl : Int.floor (dCfg.pct * ((dTier.pop.length : ℕ) : ℚ)) = 2 := by
    show Int.floor ((1 / 4 : ℚ) * ((10 : ℕ) : ℚ)) = 2
    rw [Int.floor_eq_iff]
    constructor
    · push_cast
      norm_num
    · push_cast
      norm_num
  have hcap : ∀ t ∈ [dTier], t.pop.length = dCfg.ps := by
    intro t ht
    simp only [List.mem_singleton] at ht
    subst ht
    rfl
  have hne : ([dTier] : List (Tier ℚ)) ≠ [] := by simp
  have hb : refillBatch dCfg.pct dTier.pop.length ≤ dCfg.ps := by
    unfold refillBatch
    rw [hfl]
    show (2 : ℤ).toNat ≤ 10
    omega
  exact ⟨⟨hcap, hne, hb⟩, qhfc_refill_batch_floor dCfg dTier [dTier] wExt hcap hne hb⟩

/-- C3: inside `potency_testing`, a tournament survivor joins the
exported set if and only if its fitness strictly exceeds the admission
level of the tier above and fewer than `detect_export_num` individuals
have been exported so far; an exported survivor triggers a
one-individual cascade import from the tier below `f` which is appended
to `f`, while a non-exported survivor is returned to `f` and nothing
else changes. -/
theorem qhfc_export_routing {α : Type} (ops : Ops α) (cfg : Config)
    (admT : ℚ) (j : α) (st : PTState α)
    (hcap : ∀ t ∈ st.below, t.pop.length = cfg.ps)
    (hne : st.below ≠ []) (hps : 1 ≤ cfg.ps) :
    (ops.fit j > admT ∧ (st.exports.length : ℚ) < cfg.den →
      (route_one ops cfg admT j st).exports = st.exports ++ [j] ∧
      ∃ imp, imp.length = 1 ∧ imp.Subperm (st.below.getD 0 dummyTier).pop ∧
        (route_one ops cfg admT j st).fpop = st.fpop ++ imp) ∧
    (¬(ops.fit j > admT ∧ (st.exports.length : ℚ) < cfg.den) →
      (route_one ops cfg admT j st).exports = st.exports ∧
      (route_one ops cfg admT j st).fpop = st.fpop ++ [j] ∧
      (route_one ops cfg admT j st).below = st.below) := by
  constructor
  · intro h
    unfold route_one
    rw [if_pos h]
    refine ⟨rfl, (import_from_below cfg.ps 1 st.below st.e).1, ?_, ?_, rfl⟩
    · exact (import_from_below_cap cfg.ps 1 hps st.below st.e hcap hne).1
    · exact (import_from_below_struct cfg.ps 1 hps st.below st.e hcap hne).1
  · intro h
    unfold route_one
    rw [if_neg h]
    exact ⟨rfl, rfl, rfl⟩

/-- Witness for C3: at the concrete routing state `rtSt`, the survivor
`5` clears admission level `0` with no exports so far, so it is
exported and one individual is pulled up from the tier below. -/
theorem qhfc_export_routing_witness :
    ((∀ t ∈ rtSt.below, t.pop.length = eCfg.ps) ∧ rtSt.below ≠ [] ∧
      1 ≤ eCfg.ps ∧
      (wOps.fit 5 > 0 ∧ ((rtSt.exports.length : ℚ) < eCfg.den))) ∧
    ((route_one wOps eCfg 0 5 rtSt).exports = rtSt.exports ++ [5] ∧
      ∃ imp, imp.length = 1 ∧ imp.Subperm (rtSt.below.getD 0 dummyTier).pop ∧
        (route_one wOps eCfg 0 5 rtSt).fpop = rtSt.fpop ++ imp) := by
  have hcap : ∀ t ∈ rtSt.below, t.pop.length = eCfg.ps := by
    intro t ht
    simp only [rtSt, List.mem_singleton] at ht
    subst ht
    rfl
  have hne : rtSt.below ≠ [] := by simp [rtSt]
  have hps : 1 ≤ eCfg.ps := le_refl 1
  have hcond : wOps.fit 5 > 0 ∧ ((rtSt.exports.length : ℚ) < eCfg.den) := by
    constructor
    · show (5 : ℚ) > 0
      norm_num
    · show (((0 : ℕ)) : ℚ) < 1
      norm_num
  exact ⟨⟨hcap, hne, hps, hcond⟩,
    (qhfc_export_routing wOps eCfg 0 5 rtSt hcap hne hps).1 hcond⟩

/-! ### Length preservation through the walk, and the tested pairs -/

theorem route_one_below_length {α : Type} (ops : Ops α) (cfg : Config)
    (admT : ℚ) (j : α) (st : PTState α) :
    (route_one ops cfg admT j st).below.length = st.below.length := by
  unfold route_one
  split
  · exact import_from_below_tiers_length cfg.ps 1 st.below st.e
  · rfl

theorem route_all_below_length {α : Type} (ops : Ops α) (cfg : Config)
    (admT : ℚ) :
    ∀ (js : List α) (st : PTState α),
      (route_all ops cfg admT js st).below.length = st.below.length
  | [], _ => rfl
  | j :: js, st => by
    rw [route_all, route_all_below_length ops cfg admT js,
      route_one_below_length]

theorem potency_loop_below_length {α : Type} (ops : Ops α) (cfg : Config)
    (admT : ℚ) :
    ∀ (fuel c : ℕ) (st : PTState α),
      (potency_loop ops cfg admT fuel c st).below.length = st.below.length
  | 0, _, _ => rfl
  | fuel + 1, c, st => by
    rw [potency_loop]
    split
    · rw [potency_loop_below_length ops cfg admT fuel, route_all_below_length]
    · rfl

theorem potency_testing_below_length {α : Type} (ops : Ops α) (cfg : Config)
    (t f : Tier α) (below : List (Tier α)) (e : Ext α) :
    (potency_testing ops cfg t f below e).2.2.2.1.length = below.length := by
  unfold potency_testing
  exact potency_loop_below_length ops cfg t.adm _ 0 ⟨f.pop, below, [], e⟩

theorem refresh_tier_below_length {α : Type} (ops : Ops α) (cfg : Config)
    (i : Tier α) (below : List (Tier α)) (e : Ext α) :
    (refresh_tier ops cfg i below e).2.1.length = below.length := by
  unfold refresh_tier
  exact import_from_below_tiers_length cfg.ps _ below e

theorem potency_walk_trace {α : Type} (ops : Ops α) (cfg : Config) :
    ∀ (fuel r : ℕ) (t : Tier α) (below : List (Tier α)) (e : Ext α),
      below.length ≤ fuel →
      (potency_walk ops cfg fuel r t below e).2.2 = walk_trace r below.length
  | 0, r, t, below, e, hfuel => by
    have : below.length = 0 := by omega
    rw [this]
    rfl
  | fuel + 1, r, t, below, e, hfuel => by
    match below with
    | [] => rfl
    | [b] => rfl
    | i :: m :: rest =>
      have hlen2 : (if (potency_testing ops cfg t i (m :: rest) e).1 then
          ((potency_testing ops cfg t i (m :: rest) e).2.2.1,
           (potency_testing ops cfg t i (m :: rest) e).2.2.2.1,
           (potency_testing ops cfg t i (m :: rest) e).2.2.2.2)
        else refresh_tier ops cfg (potency_testing ops cfg t i (m :: rest) e).2.2.1
          (potency_testing ops cfg t i (m :: rest) e).2.2.2.1
          (potency_testing ops cfg t i (m :: rest) e).2.2.2.2).2.1.length =
          (m :: rest).length := by
        split
        · exact potency_testing_below_length ops cfg t i (m :: rest) e
        · rw [refresh_tier_below_length,
            potency_testing_below_length ops cfg t i (m :: rest) e]
      have hfuel2 : (m :: rest).length ≤ fuel := by
        simp only [List.length_cons] at hfuel ⊢
        omega
      rw [potency_walk]
      simp only []
      rw [potency_walk_trace ops cfg fuel (r - 1) _ _ _ (hlen2 ▸ hfuel2), hlen2]
      simp only [List.length_cons]
      rfl

theorem breed_top_step_belowTop_length {α : Type} (ops : Ops α) (cfg : Config)
    (st : BTState α) :
    (breed_top_step ops cfg st).belowTop.length = st.belowTop.length := by
  simp only [breed_top_step]
  split
  · exact import_from_below_tiers_length cfg.ps _ st.belowTop _
  · rfl

theorem breed_top_belowTop_length {α : Type} (ops : Ops α) (cfg : Config) :
    ∀ (n : ℕ) (st : BTState α),
      (breed_top ops cfg n st).belowTop.length = st.belowTop.length
  | 0, _ => rfl
  | n + 1, st => by
    rw [breed_top, breed_top_belowTop_length ops cfg n,
      breed_top_step_belowTop_length]

theorem qhfc_breed_phase_tiers_length {α : Type} (ops : Ops α) (cfg : Config)
    (m : Meta α) (e : Ext α) :
    (qhfc_breed_phase ops cfg m e).1.tiers.length = m.tiers.length := by
  unfold qhfc_breed_phase
  cases hrev : m.tiers.reverse with
  | nil => rfl
  | cons top below =>
    have hm : m.tiers.length = below.length + 1 := by
      have := congrArg List.length hrev
      simpa using this
    simp only [List.length_reverse, List.length_cons, hm,
      breed_top_belowTop_length]

theorem qhfc_walk_phase_trace {α : Type} (ops : Ops α) (cfg : Config)
    (tiers : List (Tier α)) (e : Ext α) :
    (qhfc_walk_phase ops cfg tiers e).2.2 =
      walk_trace (tiers.length - 1) (tiers.length - 1) := by
  unfold qhfc_walk_phase
  cases hrev : tiers.reverse with
  | nil =>
    have : tiers.length = 0 := by
      have := congrArg List.length hrev
      simpa using this
    rw [this]
    rfl
  | cons t rest =>
    have hm : tiers.length = rest.length + 1 := by
      have := congrArg List.length hrev
      simpa using this
    simp only []
    rw [potency_walk_trace ops cfg rest.length (tiers.length - 1) t rest e le_rfl,
      hm]
    simp

theorem qhfc_update_trace {α : Type} (ops : Ops α) (cfg : Config) (m : Meta α)
    (e : Ext α) :
    (qhfc_update ops cfg m e).2.2 =
      walk_trace (m.tiers.length - 1) (m.tiers.length - 1) := by
  unfold qhfc_update
  simp only []
  rw [qhfc_walk_phase_trace, adjust_length, qhfc_breed_phase_tiers_length]

theorem walk_trace_self :
    ∀ m : ℕ, walk_trace m m =
      ((List.range' 2 (m - 1)).reverse).map (fun i => (i, i - 1))
  | 0 => rfl
  | 1 => rfl
  | m + 2 => by
    rw [walk_trace]
    have h1 : m + 2 - 1 = m + 1 := by omega
    have h2 : m + 1 - 1 = m := by omega
    rw [h1, walk_trace_self (m + 1), h2, List.range'_concat]
    simp only [List.reverse_append, List.reverse_cons, List.reverse_nil,
      List.nil_append, List.singleton_append, List.map_cons]
    have h3 : 2 + 1 * m = m + 2 := by omega
    rw [h3, h1]

/-- Counterexample for C2: in the concrete three-tier metapopulation
`mW` the update potency-tests only the pair `(rank2, rank1)`; the
bottommost pair `(rank1, rank0)` is never tested, because the walk stops
as soon as only one tier lies below the tier under test
(`(i+1) != ea.rend()`). -/
theorem qhfc_bottom_pair_not_tested :
    (qhfc_update wOps eCfg mW wExt).2.2 = [(2, 1)] ∧
    (1, 0) ∉ (qhfc_update wOps eCfg mW wExt).2.2 := by
  have h := qhfc_update_trace wOps eCfg mW wExt
  have h2 : walk_trace (mW.tiers.length - 1) (mW.tiers.length - 1) = [(2, 1)] := by
    show walk_trace 2 2 = [(2, 1)]
    rfl
  rw [h, h2]
  refine ⟨rfl, ?_⟩
  decide

/-- C2 (amended): in every update the orchestrator potency-tests the
adjacent tier pairs from `(top, top-1)` down to `(rank2, rank1)` only;
the rank-0 tier is never the tier under test (the walk stops when a
single tier remains below, so the pair `(rank1, rank0)` is skipped). -/
theorem qhfc_update_tested_pairs {α : Type} (ops : Ops α) (cfg : Config)
    (m : Meta α) (e : Ext α) :
    (qhfc_update ops cfg m e).2.2 = qhfc_tested_pairs m.tiers.length := by
  rw [qhfc_update_trace, walk_trace_self]
  unfold qhfc_tested_pairs
  have h : m.tiers.length - 1 - 1 = m.tiers.length - 2 := by omega
  rw [h]

/-! ### Capacity preservation through one full update -/

theorem refillBatch_le (pct : ℚ) (sz : ℕ) (hpct : pct ≤ 1) :
    refillBatch pct sz ≤ sz := by
  unfold refillBatch
  rw [Int.toNat_le]
  calc Int.floor (pct * (sz : ℚ)) ≤ Int.floor ((sz : ℚ)) := by
        apply Int.floor_le_floor
        calc pct * (sz : ℚ) ≤ 1 * (sz : ℚ) :=
              mul_le_mul_of_nonneg_right hpct (by positivity)
          _ = (sz : ℚ) := one_mul _
    _ = (sz : ℤ) := Int.floor_natCast sz

theorem dc_pairs_length_two {α : Type} (ops : Ops α) (l : List α)
    (h : l.length = 2) : (dc_pairs ops l).length = 2 := by
  match l, h with
  | [a, b], _ => rfl

theorem deterministic_crowding_length_two {α : Type} (ops : Ops α)
    (pop : List α) (e : Ext α) (h : pop.length = 2) :
    (deterministic_crowding ops pop e).1.length = 2 := by
  unfold deterministic_crowding
  exact dc_pairs_length_two ops _ ((shuffle_length pop e).trans h)

theorem route_one_caps {α : Type} (ops : Ops α) (cfg : Config) (admT : ℚ)
    (j : α) (st : PTState α)
    (hcap : ∀ t ∈ st.below, t.pop.length = cfg.ps)
    (hps : 1 ≤ cfg.ps) (hne : st.below ≠ []) :
    (route_one ops cfg admT j st).fpop.length = st.fpop.length + 1 ∧
    (∀ t ∈ (route_one ops cfg admT j st).below, t.pop.length = cfg.ps) := by
  unfold route_one
  split
  · constructor
    · simp only [List.length_append]
      rw [(import_from_below_cap cfg.ps 1 hps st.below st.e hcap hne).1]
    · exact (import_from_below_cap cfg.ps 1 hps st.below st.e hcap hne).2
  · constructor
    · simp
    · exact hcap

theorem route_one_exports_bound {α : Type} (ops : Ops α) (cfg : Config)
    (admT : ℚ) (j : α) (st : PTState α)
    (h : st.exports.length ≤ (Int.ceil cfg.den).toNat) :
    (route_one ops cfg admT j st).exports.length ≤ (Int.ceil cfg.den).toNat := by
  unfold route_one
  split
  · next hc =>
    simp only [List.length_append, List.length_singleton]
    have h1 : (st.exports.length : ℤ) < Int.ceil cfg.den := Int.lt_ceil.2 hc.2
    have h2 : (st.exports.length + 1 : ℤ) ≤ Int.ceil cfg.den := by omega
    calc st.exports.length + 1 = ((st.exports.length + 1 : ℤ)).toNat := by simp
      _ ≤ (Int.ceil cfg.den).toNat := Int.toNat_le_toNat h2
  · exact h

theorem route_all_caps {α : Type} (ops : Ops α) (cfg : Config) (admT : ℚ)
    (hps : 1 ≤ cfg.ps) :
    ∀ (js : List α) (st : PTState α),
      (∀ t ∈ st.below, t.pop.length = cfg.ps) → st.below ≠ [] →
      st.exports.length ≤ (Int.ceil cfg.den).toNat →
      (route_all ops cfg admT js st).fpop.length =
        st.fpop.length + js.length ∧
      (∀ t ∈ (route_all ops cfg admT js st).below, t.pop.length = cfg.ps) ∧
      (route_all ops cfg admT js st).below ≠ [] ∧
      (route_all ops cfg admT js st).exports.length ≤ (Int.ceil cfg.den).toNat
  | [], st, hcap, hne, hex => ⟨by simp [route_all], hcap, hne, hex⟩
  | j :: js, st, hcap, hne, hex => by
    have h1 := route_one_caps ops cfg admT j st hcap hps hne
    have hne1 : (route_one ops cfg admT j st).below ≠ [] := by
      have := route_one_below_length ops cfg admT j st
      intro hcon
      rw [hcon] at this
      simp only [List.length_nil] at this
      exact hne (List.length_eq_zero.1 this.symm)
    have hex1 := route_one_exports_bound ops cfg admT j st hex
    have ih := route_all_caps ops cfg admT hps js (route_one ops cfg admT j st)
      h1.2 hne1 hex1
    refine ⟨?_, ih.2.1, ih.2.2.1, ih.2.2.2⟩
    rw [route_all] at *
    rw [ih.1, h1.1]
    simp only [List.length_cons]
    omega

theorem potency_loop_caps {α : Type} (ops : Ops α) (cfg : Config) (admT : ℚ)
    (hps : 2 ≤ cfg.ps) :
    ∀ (fuel c : ℕ) (st : PTState α),
      st.fpop.length = cfg.ps →
      (∀ t ∈ st.below, t.pop.length = cfg.ps) → st.below ≠ [] →
      st.exports.length ≤ (Int.ceil cfg.den).toNat →
      (potency_loop ops cfg admT fuel c st).fpop.length = cfg.ps ∧
      (∀ t ∈ (potency_loop ops cfg admT fuel c st).below,
        t.pop.length = cfg.ps) ∧
      (potency_loop ops cfg admT fuel c st).below ≠ [] ∧
      (potency_loop ops cfg admT fuel c st).exports.length ≤
        (Int.ceil cfg.den).toNat
  | 0, _, _, h1, h2, h3, h4 => ⟨h1, h2, h3, h4⟩
  | fuel + 1, c, st, h1, h2, h3, h4 => by
    rw [potency_loop]
    split
    · have h2le : 2 ≤ st.fpop.length := by omega
      have hsplit := random_split_length 2 st.fpop st.e h2le
      have hdl := deterministic_crowding_length_two ops
        (random_split st.fpop 2 st.e).1 (random_split st.fpop 2 st.e).2.2
        hsplit.1
      have hra := route_all_caps ops cfg admT (by omega)
        (deterministic_crowding ops (random_split st.fpop 2 st.e).1
          (random_split st.fpop 2 st.e).2.2).1
        ⟨(random_split st.fpop 2 st.e).2.1, st.below, st.exports,
          (deterministic_crowding ops (random_split st.fpop 2 st.e).1
            (random_split st.fpop 2 st.e).2.2).2⟩ h2 h3 h4
      refine potency_loop_caps ops cfg admT hps fuel (c + 1) _ ?_ hra.2.1
        hra.2.2.1 hra.2.2.2
      rw [hra.1, hdl]
      simp only [hsplit.2]
      omega
    · exact ⟨h1, h2, h3, h4⟩

theorem potency_testing_caps {α : Type} (ops : Ops α) (cfg : Config)
    (hps : 2 ≤ cfg.ps) (hden : (Int.ceil cfg.den).toNat ≤ cfg.ps)
    (t f : Tier α) (below : List (Tier α)) (e : Ext α)
    (ht : t.pop.length = cfg.ps) (hf : f.pop.length = cfg.ps)
    (hcap : ∀ u ∈ below, u.pop.length = cfg.ps) (hne : below ≠ []) :
    (potency_testing ops cfg t f below e).2.1.pop.length = cfg.ps ∧
    (potency_testing ops cfg t f below e).2.2.1.pop.length = cfg.ps ∧
    (∀ u ∈ (potency_testing ops cfg t f below e).2.2.2.1,
      u.pop.length = cfg.ps) ∧
    (potency_testing ops cfg t f below e).2.2.2.1 ≠ [] := by
  have hloop := potency_loop_caps ops cfg t.adm hps
    ((Int.ceil (cfg.catchup * (f.pop.length : ℚ))).toNat + 1) 0
    ⟨f.pop, below, [], e⟩ hf hcap hne (by simp)
  have hexle : (potency_loop ops cfg t.adm
      ((Int.ceil (cfg.catchup * (f.pop.length : ℚ))).toNat + 1) 0
      ⟨f.pop, below, [], e⟩).exports.length ≤ cfg.ps :=
    le_trans hloop.2.2.2 hden
  unfold potency_testing
  refine ⟨?_, hloop.1, hloop.2.1, hloop.2.2.1⟩
  simp only [List.length_append]
  rw [elitism_length ops.fit _ t.pop (by omega)]
  omega

theorem refresh_tier_caps {α : Type} (ops : Ops α) (cfg : Config)
    (hpct : cfg.pct ≤ 1)
    (hupd : ∀ (pop : List α) (e' : Ext α),
      ((ops.tierUpdate pop e').1).length = pop.length)
    (i : Tier α) (below : List (Tier α)) (e : Ext α)
    (hi : i.pop.length = cfg.ps)
    (hcap : ∀ u ∈ below, u.pop.length = cfg.ps) (hne : below ≠ []) :
    (refresh_tier ops cfg i below e).1.pop.length = cfg.ps ∧
    (∀ u ∈ (refresh_tier ops cfg i below e).2.1, u.pop.length = cfg.ps) := by
  have hble : refillBatch cfg.pct i.pop.length ≤ cfg.ps := by
    rw [← hi]
    exact refillBatch_le cfg.pct i.pop.length hpct
  have himp := import_from_below_cap cfg.ps _ hble below e hcap hne
  unfold refresh_tier
  refine ⟨?_, himp.2⟩
  rw [hupd]
  simp only [List.length_append, List.length_take, shuffle_length, himp.1]
  rw [hi] at hble ⊢
  rw [min_eq_left (by omega)]
  omega

theorem potency_walk_caps {α : Type} (ops : Ops α) (cfg : Config)
    (hps : 2 ≤ cfg.ps) (hden : (Int.ceil cfg.den).toNat ≤ cfg.ps)
    (hpct : cfg.pct ≤ 1)
    (hupd : ∀ (pop : List α) (e' : Ext α),
      ((ops.tierUpdate pop e').1).length = pop.length) :
    ∀ (fuel r : ℕ) (t : Tier α) (below : List (Tier α)) (e : Ext α),
      t.pop.length = cfg.ps → (∀ u ∈ below, u.pop.length = cfg.ps) →
      ∀ u ∈ (potency_walk ops cfg fuel r t below e).1, u.pop.length = cfg.ps
  | 0, r, t, below, e, ht, hcap => by
    intro u hu
    rw [potency_walk] at hu
    rcases List.mem_cons.1 hu with h | h
    · rw [h]
      exact ht
    · exact hcap u h
  | fuel + 1, r, t, below, e, ht, hcap => by
    match below with
    | [] =>
      intro u hu
      simp only [potency_walk, List.mem_singleton] at hu
      rw [hu]
      exact ht
    | [b] =>
      intro u hu
      simp only [potency_walk, List.mem_cons, List.mem_singleton] at hu
      rcases hu with h | h | h
      · rw [h]
        exact ht
      · rw [h]
        exact hcap b (by simp)
      · simp at h
    | i :: m :: rest =>
      have hpt := potency_testing_caps ops cfg hps hden t i (m :: rest) e ht
        (hcap i (by simp))
        (fun u hu => hcap u (List.mem_cons_of_mem i hu)) (by simp)
      have hstep1 : (if (potency_testing ops cfg t i (m :: rest) e).1 then
          ((potency_testing ops cfg t i (m :: rest) e).2.2.1,
           (potency_testing ops cfg t i (m :: rest) e).2.2.2.1,
           (potency_testing ops cfg t i (m :: rest) e).2.2.2.2)
        else refresh_tier ops cfg
          (potency_testing ops cfg t i (m :: rest) e).2.2.1
          (potency_testing ops cfg t i (m :: rest) e).2.2.2.1
          (potency_testing ops cfg t i (m :: rest) e).2.2.2.2).1.pop.length =
          cfg.ps := by
        split
        · exact hpt.2.1
        · exact (refresh_tier_caps ops cfg hpct hupd _ _ _ hpt.2.1 hpt.2.2.1
            hpt.2.2.2).1
      have hstep2 : ∀ u ∈ (if (potency_testing ops cfg t i (m :: rest) e).1 then
          ((potency_testing ops cfg t i (m :: rest) e).2.2.1,
           (potency_testing ops cfg t i (m :: rest) e).2.2.2.1,
           (potency_testing ops cfg t i (m :: rest) e).2.2.2.2)
        else refresh_tier ops cfg
          (potency_testing ops cfg t i (m :: rest) e).2.2.1
          (potency_testing ops cfg t i (m :: rest) e).2.2.2.1
          (potency_testing ops cfg t i (m :: rest) e).2.2.2.2).2.1,
          u.pop.length = cfg.ps := by
        split
        · exact hpt.2.2.1
        · exact (refresh_tier_caps ops cfg hpct hupd _ _ _ hpt.2.1 hpt.2.2.1
            hpt.2.2.2).2
      intro u hu
      rw [potency_walk] at hu
      simp only [] at hu
      rcases List.mem_cons.1 hu with h | h
      · rw [h]
        exact hpt.1
      · exact potency_walk_caps ops cfg hps hden hpct hupd fuel (r - 1) _ _ _
          hstep1 hstep2 u h

theorem breed_top_step_caps {α : Type} (ops : Ops α) (cfg : Config)
    (hpct : cfg.pct ≤ 1)
    (hupd : ∀ (pop : List α) (e' : Ext α),
      ((ops.tierUpdate pop e').1).length = pop.length)
    (st : BTState α) (htop : st.top.length = cfg.ps)
    (hcap : ∀ u ∈ st.belowTop, u.pop.length = cfg.ps) :
    (breed_top_step ops cfg st).top.length = cfg.ps ∧
    (∀ u ∈ (breed_top_step ops cfg st).belowTop, u.pop.length = cfg.ps) := by
  have hu1 : (ops.tierUpdate st.top st.e).1.length = cfg.ps := by
    rw [hupd, htop]
  have hble : refillBatch cfg.pct (ops.tierUpdate st.top st.e).1.length ≤
      cfg.ps := by
    rw [hu1]
    exact refillBatch_le cfg.pct cfg.ps hpct
  simp only [breed_top_step]
  split
  · by_cases hb : st.belowTop = []
    · rw [hb]
      have hnil : ∀ (e' : Ext α) (n : ℕ),
          import_from_below cfg.ps n ([] : List (Tier α)) e' = ([], [], e') :=
        fun _ _ => rfl
      constructor
      · simp only [hnil, List.length_append, List.length_nil]
        rw [elitism_length ops.fit _ _ (by omega)]
        omega
      · intro u hu
        simp only [hnil] at hu
        simp at hu
    · have himp := import_from_below_cap cfg.ps _ hble st.belowTop
        (ops.tierUpdate st.top st.e).2 hcap hb
      constructor
      · simp only [List.length_append, himp.1]
        have hble2 : refillBatch cfg.pct (ops.tierUpdate st.top st.e).1.length ≤
            (ops.tierUpdate st.top st.e).1.length := by omega
        rw [elitism_length ops.fit _ _ (by omega)]
        omega
      · exact himp.2
  · exact ⟨hu1, hcap⟩

theorem breed_top_caps {α : Type} (ops : Ops α) (cfg : Config)
    (hpct : cfg.pct ≤ 1)
    (hupd : ∀ (pop : List α) (e' : Ext α),
      ((ops.tierUpdate pop e').1).length = pop.length) :
    ∀ (n : ℕ) (st : BTState α), st.top.length = cfg.ps →
      (∀ u ∈ st.belowTop, u.pop.length = cfg.ps) →
      (breed_top ops cfg n st).top.length = cfg.ps ∧
      (∀ u ∈ (breed_top ops cfg n st).belowTop, u.pop.length = cfg.ps)
  | 0, _, htop, hcap => ⟨htop, hcap⟩
  | n + 1, st, htop, hcap => by
    rw [breed_top]
    have hstep := breed_top_step_caps ops cfg hpct hupd st htop hcap
    exact breed_top_caps ops cfg hpct hupd n _ hstep.1 hstep.2

theorem qhfc_breed_phase_caps {α : Type} (ops : Ops α) (cfg : Config)
    (hpct : cfg.pct ≤ 1)
    (hupd : ∀ (pop : List α) (e' : Ext α),
      ((ops.tierUpdate pop e').1).length = pop.length)
    (m : Meta α) (e : Ext α)
    (hcap : ∀ u ∈ m.tiers, u.pop.length = cfg.ps) :
    ∀ u ∈ (qhfc_breed_phase ops cfg m e).1.tiers, u.pop.length = cfg.ps := by
  unfold qhfc_breed_phase
  cases hrev : m.tiers.reverse with
  | nil => exact hcap
  | cons top below =>
    intro u hu
    have htop : top.pop.length = cfg.ps := by
      refine hcap top ?_
      rw [← List.mem_reverse, hrev]
      simp
    have hbel : ∀ u ∈ below, u.pop.length = cfg.ps := by
      intro v hv
      refine hcap v ?_
      rw [← List.mem_reverse, hrev]
      exact List.mem_cons_of_mem top hv
    have hbt := breed_top_caps ops cfg hpct hupd (Int.ceil cfg.btf).toNat
      ⟨top.pop, below, m.topCu, m.lastGen, m.lastMax, e⟩ htop hbel
    simp only [List.mem_reverse] at hu
    rcases List.mem_cons.1 hu with h | h
    · rw [h]
      exact hbt.1
    · exact hbt.2 u h

theorem adjust_caps {α : Type} (fit : α → ℚ) (tiers : List (Tier α)) (ps : ℕ)
    (hcap : ∀ u ∈ tiers, u.pop.length = ps) :
    ∀ u ∈ adjust_admission_levels fit tiers, u.pop.length = ps := by
  intro u hu
  have hmem : u.pop ∈ (adjust_admission_levels fit tiers).map (fun t => t.pop) :=
    List.mem_map_of_mem _ hu
  rw [adjust_map_pop] at hmem
  obtain ⟨v, hv, hpv⟩ := List.mem_map.1 hmem
  rw [← hpv]
  exact hcap v hv

theorem qhfc_walk_phase_caps {α : Type} (ops : Ops α) (cfg : Config)
    (hps : 2 ≤ cfg.ps) (hden : (Int.ceil cfg.den).toNat ≤ cfg.ps)
    (hpct : cfg.pct ≤ 1)
    (hupd : ∀ (pop : List α) (e' : Ext α),
      ((ops.tierUpdate pop e').1).length = pop.length)
    (tiers : List (Tier α)) (e : Ext α)
    (hcap : ∀ u ∈ tiers, u.pop.length = cfg.ps) :
    ∀ u ∈ (qhfc_walk_phase ops cfg tiers e).1, u.pop.length = cfg.ps := by
  unfold qhfc_walk_phase
  cases hrev : tiers.reverse with
  | nil => exact hcap
  | cons t rest =>
    intro u hu
    simp only [List.mem_reverse] at hu
    refine potency_walk_caps ops cfg hps hden hpct hupd rest.length
      (tiers.length - 1) t rest e ?_ ?_ u hu
    · refine hcap t ?_
      rw [← List.mem_reverse, hrev]
      simp
    · intro v hv
      refine hcap v ?_
      rw [← List.mem_reverse, hrev]
      exact List.mem_cons_of_mem t hv

/-- C1: one full update of the QHFC generational model preserves the
per-tier size invariant: if every tier holds exactly `population_size`
individuals before the update (and the externally supplied internal tier
update is size-preserving, `population_size ≥ 2`,
`detect_export_num ≤ population_size` and `percent_refill ≤ 1`), then at
the end of the update every tier again holds exactly `population_size`
individuals. -/
theorem qhfc_update_preserves_population_size {α : Type} (ops : Ops α)
    (cfg : Config) (m : Meta α) (e : Ext α)
    (hcap : ∀ u ∈ m.tiers, u.pop.length = cfg.ps)
    (hps : 2 ≤ cfg.ps) (hden : (Int.ceil cfg.den).toNat ≤ cfg.ps)
    (hpct : cfg.pct ≤ 1)
    (hupd : ∀ (pop : List α) (e' : Ext α),
      ((ops.tierUpdate pop e').1).length = pop.length) :
    ∀ u ∈ (qhfc_update ops cfg m e).1.tiers, u.pop.length = cfg.ps := by
  intro u hu
  exact qhfc_walk_phase_caps ops cfg hps hden hpct hupd _ _
    (adjust_caps ops.fit _ cfg.ps
      (qhfc_breed_phase_caps ops cfg hpct hupd m e hcap)) u hu

/-- Witness for C1: the theorem applies at the concrete three-tier
metapopulation `uMeta` with every tier at capacity 2. -/
theorem qhfc_update_preserves_population_size_witness :
    ((∀ u ∈ uMeta.tiers, u.pop.length = uCfg.ps) ∧ 2 ≤ uCfg.ps ∧
      (Int.ceil uCfg.den).toNat ≤ uCfg.ps ∧ uCfg.pct ≤ 1 ∧
      (∀ (pop : List ℚ) (e' : Ext ℚ),
        ((wOps.tierUpdate pop e').1).length = pop.length)) ∧
    (∀ u ∈ (qhfc_update wOps uCfg uMeta wExt).1.tiers,
      u.pop.length = uCfg.ps) := by
  have hcap : ∀ u ∈ uMeta.tiers, u.pop.length = uCfg.ps := by
    intro u hu
    simp only [uMeta, List.mem_cons, List.mem_singleton] at hu
    rcases hu with h | h | h | h
    · rw [h]
      rfl
    · rw [h]
      rfl
    · rw [h]
      rfl
    · simp at h
  have hps : 2 ≤ uCfg.ps := le_refl 2
  have hden : (Int.ceil uCfg.den).toNat ≤ uCfg.ps := by
    show (Int.ceil (1 : ℚ)).toNat ≤ 2
    rw [Int.ceil_one]
    omega
  have hpct : uCfg.pct ≤ 1 := le_refl 1
  have hupd : ∀ (pop : List ℚ) (e' : Ext ℚ),
      ((wOps.tierUpdate pop e').1).length = pop.length := fun _ _ => rfl
  exact ⟨⟨hcap, hps, hden, hpct, hupd⟩,
    qhfc_update_preserves_population_size wOps uCfg uMeta wExt hcap hps hden
      hpct hupd⟩

end EalibQhfc
